import Mathlib

/-!
Shallow embedding of the flare sync-and-catalog pipeline:
`src/camera_client.py` (device enumeration, recursive file listing,
recency filter, download) and `src/image_database.py` (metadata
extraction and the sqlite-backed catalog).

Modelling conventions:
* Python ints are `Int` (or `Nat` for indices/counts), sqlite REAL
  columns and Python floats are `Rat` (no claim depends on binary
  floating-point rounding), Python strings are `String`.
* A raised Python exception is an `Except`/`Option` failure value.
* External capabilities (libgphoto2's camera, pyusb, exiftool's JSON
  output) are explicit function parameters of the embedded operations.
* String primitives used by the source (`startswith`, slicing, `split`,
  `int(...)`, `os.path.join`, `os.path.basename`) are re-implemented
  structurally over `String.data` so that every definition evaluates by
  kernel reduction.
-/

/-- `s.data` begins with `'/'` — Python `s.startswith("/")` for the
one-character posix separator used by `os.path.join`. -/
def startsWithSlash (s : String) : Bool :=
  match s.data with
  | [] => false
  | c :: _ => c == '/'

/-- `s.data` ends with `'/'` — Python `s.endswith("/")`. -/
def endsWithSlash (s : String) : Bool :=
  match s.data.getLast? with
  | some c => c == '/'
  | none => false

/-- Python `s[:n]` on character level. -/
def strTake (s : String) (n : Nat) : String :=
  ⟨s.data.take n⟩

/-- Python `s[n:]` on character level. -/
def strDrop (s : String) (n : Nat) : String :=
  ⟨s.data.drop n⟩

/-- Python (posix) `os.path.join(a, b)` for two arguments, following
`posixpath.join`: an absolute second component replaces the first, an
empty or separator-terminated first component is extended without an
extra separator, otherwise the separator is inserted. -/
def osPathJoin (a b : String) : String :=
  if startsWithSlash b then b
  else if a == "" then b
  else if endsWithSlash a then a ++ b
  else a ++ "/" ++ b

/-- Python `os.path.basename(p)` (equally the second component of
`os.path.split(p)`): the part of `p` after its last `'/'`. -/
def basename (p : String) : String :=
  ⟨(p.data.reverse.takeWhile (fun c => c != '/')).reverse⟩

/-- Splits a character list at every occurrence of `sep`; the first
accumulator argument is the current chunk, reversed.  Mirrors Python
`str.split(sep)` for a one-character separator (so `"".split(sep)` is
`[""]`, and separators at the ends produce empty chunks). -/
def splitCharAux (sep : Char) : List Char → List Char → List String
  | [], cur => [⟨cur.reverse⟩]
  | c :: rest, cur =>
    if c == sep then ⟨cur.reverse⟩ :: splitCharAux sep rest []
    else splitCharAux sep rest (c :: cur)

/-- Python `s.split(sep)` for a one-character separator. -/
def splitChar (sep : Char) (s : String) : List String :=
  splitCharAux sep s.data []

/-- Digit-string accumulator: `some` of the decimal value when every
character is a digit, `none` otherwise. -/
def digitsToNatAux : List Char → Nat → Option Nat
  | [], acc => some acc
  | c :: rest, acc =>
    if c.isDigit then digitsToNatAux rest (acc * 10 + (c.toNat - 48))
    else none

/-- Decimal parse of a nonempty all-digit string. -/
def parseNatDigits (l : List Char) : Option Nat :=
  match l with
  | [] => none
  | _ => digitsToNatAux l 0

/-- Python `int(s)` on a string: optional sign followed by digits
(whitespace tolerance of CPython is not modelled; no caller in the
source passes padded strings). Failure models the raised `ValueError`. -/
def pyParseInt (s : String) : Option Int :=
  match s.data with
  | '-' :: rest => (parseNatDigits rest).map (fun n => -(n : Int))
  | '+' :: rest => (parseNatDigits rest).map (fun n => (n : Int))
  | l => (parseNatDigits l).map (fun n => (n : Int))

/-- Python `float(s)` on a decimal literal: optional sign, digits,
optional fractional part (exponent notation and `inf`/`nan` are not
modelled; no claim depends on them).  Failure models `ValueError`. -/
def pyParseFloat (s : String) : Option Rat :=
  let signed : Bool × List Char :=
    match s.data with
    | '-' :: rest => (true, rest)
    | '+' :: rest => (false, rest)
    | l => (false, l)
  let neg := signed.1
  let body := signed.2
  match splitCharAux '.' body [] with
  | [a] =>
    (parseNatDigits a.data).map (fun n => if neg then -(n : Rat) else (n : Rat))
  | [a, b] =>
    if a.data.isEmpty && b.data.isEmpty then none
    else
      let ai := if a.data.isEmpty then some 0 else parseNatDigits a.data
      let bi := if b.data.isEmpty then some 0 else parseNatDigits b.data
      match ai, bi with
      | some i, some f =>
        let mag : Rat := (i : Rat) + (f : Rat) / ((10 : Rat) ^ b.data.length)
        some (if neg then -mag else mag)
      | _, _ => none
  | _ => none

/-! ## Device data model (`src/camera_client.py`) -/

/-- `CameraInfo` (pydantic model, `camera_client.py` lines 10–15). -/
structure CameraInfo where
  index : Nat
  bus : Int
  device : Int
  manufacturer_id : String
  product_id : String
  deriving DecidableEq

/-- The `.file` attribute of a gphoto2 `CameraFileInfo`: carries the
device-reported modification time when present (`getattr(info.file,
"mtime", 0)` defaults it to `0`). -/
structure FileField where
  mtime : Option Int
  deriving DecidableEq

/-- A gphoto2 `CameraFileInfo` as consumed by `list_new_files`: it may
or may not carry a `.file` attribute (`hasattr(info, "file")`). -/
structure CameraFileInfo where
  file : Option FileField
  deriving DecidableEq

/-- The folder tree a camera exposes: `folder_list_files` yields the
named files (with their `file_get_info` result) and
`folder_list_folders` the named subfolders, in listing order. -/
inductive CamFolder where
  | node (files : List (String × CameraFileInfo)) (subs : List (String × CamFolder))

/-- The device-side state a `CameraClient` call observes: the length of
a fresh `gp.Camera.autodetect()` enumeration and the folder tree of the
camera that is opened.  The source re-runs `autodetect` inside each
call; a single call observes one such state. -/
structure CameraState where
  enumLen : Nat
  tree : CamFolder

/-- The `IndexError("Camera index out of range")` of the source; the
spec names it `DeviceIndexError`. -/
inductive CamError where
  | deviceIndexError
  deriving DecidableEq

mutual

/-- Recursive walk of `CameraClient.list_files` (lines 63–72): the
files of a folder first, then the contents of each subfolder in order,
paths rebuilt with `os.path.join`. -/
def listFilesWalk : CamFolder → String → List String
  | .node files subs, path =>
    files.map (fun f => osPathJoin path f.1) ++ listFilesWalkSubs subs path

def listFilesWalkSubs : List (String × CamFolder) → String → List String
  | [], _ => []
  | (n, sub) :: rest, path =>
    listFilesWalk sub (osPathJoin path n) ++ listFilesWalkSubs rest path

end

/-- `CameraClient.list_files` (lines 54–74): stale-index check against
the fresh enumeration, then the recursive walk from `"/"`. -/
def CameraClient.list_files (cam : CameraState) (camera_info : CameraInfo) :
    Except CamError (List String) :=
  if cam.enumLen ≤ camera_info.index then .error .deviceIndexError
  else .ok (listFilesWalk cam.tree "/")

/-- Python-dict assignment `images[fullpath] = info`: an existing key is
overwritten in place (its position is kept), a new key is appended. -/
def dictInsert (d : List (String × CameraFileInfo)) (k : String) (v : CameraFileInfo) :
    List (String × CameraFileInfo) :=
  if d.any (fun e => e.1 == k) then d.map (fun e => if e.1 == k then (k, v) else e)
  else d ++ [(k, v)]

mutual

/-- `_recurse_and_collect` of `CameraClient.list_images` (lines
91–98): insert the files of `path` into the dict in listing order, then
recurse into the subfolders in order. -/
def collectImages : CamFolder → String → List (String × CameraFileInfo) →
    List (String × CameraFileInfo)
  | .node files subs, path, acc =>
    collectImagesSubs subs path
      (files.foldl (fun a f => dictInsert a (osPathJoin path f.1) f.2) acc)

def collectImagesSubs : List (String × CamFolder) → String →
    List (String × CameraFileInfo) → List (String × CameraFileInfo)
  | [], _, acc => acc
  | (n, sub) :: rest, path, acc =>
    collectImagesSubs rest path (collectImages sub (osPathJoin path n) acc)

end

/-- `CameraClient.list_images` (lines 76–104): stale-index check, then
the dict produced by the recursive collection from `"/"` (insertion
order, as Python dicts preserve it). -/
def CameraClient.list_images (cam : CameraState) (camera_info : CameraInfo) :
    Except CamError (List (String × CameraFileInfo)) :=
  if cam.enumLen ≤ camera_info.index then .error .deviceIndexError
  else .ok (collectImages cam.tree "/" [])

/-- The recency test of `list_new_files` (line 117):
`hasattr(info, "file") and getattr(info.file, "mtime", 0) >= cutoff`. -/
def isRecent (info : CameraFileInfo) (cutoff : Int) : Bool :=
  match info.file with
  | none => false
  | some f => decide (cutoff ≤ f.mtime.getD 0)

/-- `CameraClient.list_new_files` (lines 106–120): keep the listed
files whose recency test passes against `cutoff = now − days·86400`. -/
def CameraClient.list_new_files (cam : CameraState) (camera_info : CameraInfo)
    (days : Nat) (now : Int) : Except CamError (List (String × CameraFileInfo)) :=
  match CameraClient.list_images cam camera_info with
  | .error e => .error e
  | .ok all => .ok (all.filter (fun e => isRecent e.2 (now - (days : Int) * 86400)))

/-- `CameraClient.download_new_files` (lines 122–170): list the recent
files; an empty set returns `[]` before the second enumeration; then
the stale-index check again, and each file is fetched and saved to
`os.path.join(destination, name)` where `name` is the second component
of `os.path.split(cam_path)`, in dict order.  The written bytes are not
observable in the returned value and are not modelled. -/
def CameraClient.download_new_files (cam : CameraState) (camera_info : CameraInfo)
    (days : Nat) (destination : String) (now : Int) : Except CamError (List String) :=
  match CameraClient.list_new_files cam camera_info days now with
  | .error e => .error e
  | .ok new_files =>
    if new_files.isEmpty then .ok []
    else if cam.enumLen ≤ camera_info.index then .error .deviceIndexError
    else .ok (new_files.map (fun e => osPathJoin destination (basename e.1)))

/-! ## Device enumeration (`CameraClient.list_connected_cameras`) -/

/-- The pyusb device object as used by the source: only its
`iManufacturer`/`iProduct` string indices are read. -/
structure UsbDevice where
  iManufacturer : Nat
  iProduct : Nat
  deriving DecidableEq

/-- Python `x or "Unknown"` for the result of `usb.util.get_string`:
a `None` or empty (falsy) string becomes the placeholder. -/
def orUnknown (s : Option String) : String :=
  match s with
  | some v => if v == "" then "Unknown" else v
  | none => "Unknown"

/-- The body of the `for idx, (_name, port) in enumerate(cameras)` loop
(lines 24–50) for one entry.  `usbFind` models `usb.core.find(bus=...,
address=...)`; `getString` models `usb.util.get_string` and may fail
(`Except.error`), which the source's `except Exception` turns into a
skip of this device.  `none` means nothing is appended for this entry. -/
def processPort (usbFind : Int → Int → Option UsbDevice)
    (getString : UsbDevice → Nat → Except String (Option String))
    (idx : Nat) (port : String) : Option CameraInfo :=
  if strTake port 4 == "usb:" then
    match splitChar ',' (strDrop port 4) with
    | [busStr, devStr] =>
      match pyParseInt busStr, pyParseInt devStr with
      | some bus, some device =>
        match usbFind bus device with
        | none => none
        | some dev =>
          match getString dev dev.iManufacturer with
          | .error _ => none
          | .ok m =>
            match getString dev dev.iProduct with
            | .error _ => none
            | .ok p =>
              some { index := idx, bus := bus, device := device,
                     manufacturer_id := orUnknown m, product_id := orUnknown p }
      | _, _ => none
    | _ => none
  else none

/-- The enumeration loop with its running `enumerate` index. -/
def lccAux (usbFind : Int → Int → Option UsbDevice)
    (getString : UsbDevice → Nat → Except String (Option String)) :
    Nat → List (String × String) → List CameraInfo
  | _, [] => []
  | idx, e :: rest =>
    match processPort usbFind getString idx e.2 with
    | some c => c :: lccAux usbFind getString (idx + 1) rest
    | none => lccAux usbFind getString (idx + 1) rest

/-- `CameraClient.list_connected_cameras` (lines 20–52):
`autodetect` is the `(name, port)` list returned by
`gp.Camera.autodetect()`. -/
def CameraClient.list_connected_cameras (autodetect : List (String × String))
    (usbFind : Int → Int → Option UsbDevice)
    (getString : UsbDevice → Nat → Except String (Option String)) : List CameraInfo :=
  lccAux usbFind getString 0 autodetect

/-! ## Metadata extraction and catalog (`src/image_database.py`) -/

/-- `ImageMetadata` (pydantic model, `image_database.py` lines 11–19);
also the row shape of the sqlite `images` table (`connect`, lines
42–60): `file_name` is the primary key, REAL columns are `Rat`. -/
structure ImageMetadata where
  file_name : String
  rating : Int
  aperture : Rat
  lens_id : String
  capture_time : String
  focal_length : Rat
  exposure_time : Rat
  color_temperature : Int
  deriving DecidableEq

/-- A value of one exiftool JSON tag: `json.loads` yields numbers or
strings for the tags the source reads. -/
inductive TagVal where
  | num (q : Rat)
  | str (s : String)
  deriving DecidableEq

/-- Python `int(v)` on a tag value: numbers truncate toward zero
(`Int.div` is T-division), strings must be integer literals.  `none`
models the raised `ValueError`. -/
def pyInt (t : TagVal) : Option Int :=
  match t with
  | .num q => some (Int.tdiv q.num (q.den : Int))
  | .str s => pyParseInt s

/-- Python `float(v)` on a tag value.  `none` models `ValueError`. -/
def pyFloat (t : TagVal) : Option Rat :=
  match t with
  | .num q => some q
  | .str s => pyParseFloat s

/-- Python `str(v)` on a tag value: strings pass through; the decimal
rendering of a number never fails (its exact spelling is abstracted —
no claim depends on it). -/
def pyStr (t : TagVal) : String :=
  match t with
  | .str s => s
  | .num q => if q.den == 1 then toString q.num else toString q

/-- `int(metadata.get(key, 0))` modulo the chosen default: an absent
tag yields the default unchanged (in the source the default is the
already-coerced literal), a present tag must coerce. -/
def tagInt (md : String → Option TagVal) (key : String) (d : Int) : Option Int :=
  match md key with
  | none => some d
  | some v => pyInt v

/-- `float(metadata.get(key, 0.0))`, as `tagInt`. -/
def tagFloat (md : String → Option TagVal) (key : String) (d : Rat) : Option Rat :=
  match md key with
  | none => some d
  | some v => pyFloat v

/-- `str(metadata.get(key, ""))`: never fails. -/
def tagStr (md : String → Option TagVal) (key : String) (d : String) : String :=
  match md key with
  | none => d
  | some v => pyStr v

/-- `ImageMetadata.load` (lines 21–36).  `md` is the exiftool JSON
object for the file (`et.execute(b"-j", path)`), as a partial map from
tag name to value.  `none` models the exception (`ExtractionError` in
the spec) raised by a failed numeric coercion: the whole extraction
fails, no per-field defaulting of malformed values. -/
def ImageMetadata.load (md : String → Option TagVal) (path : String) :
    Option ImageMetadata :=
  (tagInt md "XMP:Rating" 0).bind fun rating =>
  (tagFloat md "EXIF:FNumber" 0).bind fun aperture =>
  (tagFloat md "EXIF:FocalLength" 0).bind fun focal =>
  (tagFloat md "EXIF:ExposureTime" 0).bind fun exposure =>
  (tagInt md "EXIF:WhiteBalance" 0).bind fun ct =>
  some { file_name := basename path,
         rating := rating,
         aperture := aperture,
         lens_id := tagStr md "Composite:LensSpec" "",
         capture_time := tagStr md "EXIF:DateTimeOriginal" "",
         focal_length := focal,
         exposure_time := exposure,
         color_temperature := ct }

/-- The contents of the sqlite `images` table.  `file_name` is the
primary key; row order carries no meaning in sqlite, the list order
merely fixes a concrete representation. -/
abbrev ImagesTable := List ImageMetadata

/-- One `INSERT OR REPLACE` (lines 66–83): on a primary-key conflict
the old row is deleted and the new row inserted. -/
def upsert1 (db : ImagesTable) (r : ImageMetadata) : ImagesTable :=
  db.filter (fun s => s.file_name != r.file_name) ++ [r]

/-- `ImageDatabase.add` (lines 62–85): one `INSERT OR REPLACE` per
record, in batch order, committed as one transaction. -/
def ImageDatabase.add (db : ImagesTable) (image_data : List ImageMetadata) :
    ImagesTable :=
  image_data.foldl upsert1 db

/-- `ImageDatabase.contains` (lines 87–113): `SELECT 1 FROM images
WHERE` each of the seven non-key fields equals the probe's — the
filename column is not part of the predicate. -/
def ImageDatabase.contains (db : ImagesTable) (image_data : ImageMetadata) : Bool :=
  db.any (fun s =>
    s.rating == image_data.rating &&
    s.aperture == image_data.aperture &&
    s.lens_id == image_data.lens_id &&
    s.capture_time == image_data.capture_time &&
    s.focal_length == image_data.focal_length &&
    s.exposure_time == image_data.exposure_time &&
    s.color_temperature == image_data.color_temperature)

/-- `ImageDatabase.clear` (lines 115–120): `DELETE FROM images`. -/
def ImageDatabase.clear (_db : ImagesTable) : ImagesTable := []

/-- `ImageDatabase.rebuild` (lines 122–136): `clear`, then `process`
over every path (`extract` models `ImageMetadata.load` on that path;
`none` is the caught-and-logged failure), gathered by
`ThreadPoolExecutor.map` — which returns results in input order — then
the non-`None` results are stored with one `add`. -/
def ImageDatabase.rebuild (extract : String → Option ImageMetadata)
    (db : ImagesTable) (image_paths : List String) : ImagesTable :=
  ImageDatabase.add (ImageDatabase.clear db)
    ((image_paths.map extract).filterMap id)

/-- `rebuild` with the worker-pool scheduling made explicit: `order`
is the completion order of the per-path extraction tasks; as each task
`i` completes, the pair `(i, result)` is recorded, and
`ThreadPoolExecutor.map`'s output is read back by input position —
a mapping keyed by path index, not by completion order.  (The read-back
defaults to `none` on a hole, but a complete schedule has no hole —
see `find_completed`.) -/
def ImageDatabase.rebuildSched (extract : String → Option ImageMetadata)
    (db : ImagesTable) (image_paths : List String)
    (order : List (Fin image_paths.length)) : ImagesTable :=
  let completed := order.map (fun i => (i.val, extract (image_paths.get i)))
  let results := (List.finRange image_paths.length).map
    (fun i => (((completed.find? (fun c => c.1 == i.val)).map Prod.snd).getD none))
  ImageDatabase.add (ImageDatabase.clear db) (results.filterMap id)

/-! ## Catalog algebra -/

/-- Specification-side canonical tail of a batch: the records that
survive `INSERT OR REPLACE` processing of the whole batch — each
filename's last occurrence, in order of last occurrence. -/
def dedupLast : List ImageMetadata → List ImageMetadata
  | [] => []
  | r :: rest =>
    if rest.all (fun x => r.file_name != x.file_name) then r :: dedupLast rest
    else dedupLast rest

/-- The last record of a batch carrying filename `k`, if any. -/
def lastWith : List ImageMetadata → String → Option ImageMetadata
  | [], _ => none
  | r :: rest, k =>
    match lastWith rest k with
    | some s => some s
    | none => if r.file_name == k then some r else none

theorem add_canon (db : ImagesTable) (b : List ImageMetadata) :
    ImageDatabase.add db b =
      db.filter (fun s => b.all (fun r => s.file_name != r.file_name)) ++ dedupLast b := by
  induction b generalizing db with
  | nil => simp [ImageDatabase.add, dedupLast]
  | cons r rest ih =>
    have h1 : ImageDatabase.add db (r :: rest) = ImageDatabase.add (upsert1 db r) rest := rfl
    rw [h1, ih, upsert1, List.filter_append, List.filter_filter, dedupLast]
    by_cases h : rest.all (fun x => r.file_name != x.file_name) = true
    · simp only [h, if_true, List.filter_cons, List.filter_nil, List.all_cons]
      simp only [h, List.append_assoc]
      refine congrArg (· ++ _) ?_
      exact List.filter_congr (fun a _ => by rw [Bool.and_comm])
    · simp only [eq_false_of_ne_true h, if_false, List.filter_cons, List.filter_nil,
        List.all_cons]
      simp only [eq_false_of_ne_true h, List.append_assoc]
      refine congrArg (· ++ _) ?_
      exact List.filter_congr (fun a _ => by rw [Bool.and_comm])

theorem mem_dedupLast {s : ImageMetadata} {b : List ImageMetadata}
    (h : s ∈ dedupLast b) : s ∈ b := by
  induction b with
  | nil => simp [dedupLast] at h
  | cons r rest ih =>
    rw [dedupLast] at h
    by_cases hc : rest.all (fun x => r.file_name != x.file_name) = true
    · rw [if_pos hc] at h
      rcases List.mem_cons.mp h with h | h
      · exact h ▸ List.mem_cons_self r rest
      · exact List.mem_cons_of_mem r (ih h)
    · rw [if_neg hc] at h
      exact List.mem_cons_of_mem r (ih h)

theorem all_ne_eq_false_of_mem {s : ImageMetadata} {b : List ImageMetadata}
    (h : s ∈ b) : b.all (fun r => s.file_name != r.file_name) = false := by
  rcases hb : b.all (fun r => s.file_name != r.file_name) with _ | _
  · rfl
  · exfalso
    have := List.all_eq_true.mp hb s h
    simp at this

theorem dedupLast_keys_nodup (b : List ImageMetadata) :
    ((dedupLast b).map (fun r => r.file_name)).Nodup := by
  induction b with
  | nil => simp [dedupLast]
  | cons r rest ih =>
    rw [dedupLast]
    by_cases hc : rest.all (fun x => r.file_name != x.file_name) = true
    · rw [if_pos hc]
      refine List.nodup_cons.mpr ⟨?_, ih⟩
      intro hmem
      rcases List.mem_map.mp hmem with ⟨s, hs, hname⟩
      have hsrest := mem_dedupLast hs
      have := List.all_eq_true.mp hc s hsrest
      simp [hname] at this
    · rw [if_neg hc]
      exact ih

theorem filter_keys_nodup (db : ImagesTable) (p : ImageMetadata → Bool)
    (h : (db.map (fun r => r.file_name)).Nodup) :
    ((db.filter p).map (fun r => r.file_name)).Nodup := by
  have hsub : (db.filter p).Sublist db := List.filter_sublist db
  exact (hsub.map (fun r => r.file_name)).nodup h

theorem find_append (l₁ l₂ : ImagesTable) (p : ImageMetadata → Bool) :
    (l₁ ++ l₂).find? p =
      match l₁.find? p with
      | some x => some x
      | none => l₂.find? p := by
  induction l₁ with
  | nil => simp
  | cons a rest ih =>
    by_cases h : p a = true
    · simp [List.find?_cons, h]
    · simp only [List.cons_append, List.find?_cons, eq_false_of_ne_true h]
      exact ih

theorem find_filter_of_imp (db : ImagesTable) (p q : ImageMetadata → Bool)
    (h : ∀ a, p a = true → q a = true) :
    (db.filter q).find? p = db.find? p := by
  induction db with
  | nil => simp
  | cons a rest ih =>
    by_cases hq : q a = true
    · by_cases hp : p a = true
      · simp [List.filter_cons, hq, List.find?_cons, hp]
      · simp only [List.filter_cons, hq, if_true, List.find?_cons, eq_false_of_ne_true hp]
        exact ih
    · have hp : p a = false := by
        rcases hpa : p a with _ | _
        · rfl
        · exact absurd (h a hpa) hq
      simp only [List.filter_cons, hq, if_false, List.find?_cons, hp]
      exact ih

theorem lastWith_none_iff (b : List ImageMetadata) (k : String) :
    lastWith b k = none ↔ ∀ r ∈ b, r.file_name ≠ k := by
  induction b with
  | nil => simp [lastWith]
  | cons r rest ih =>
    rw [lastWith]
    constructor
    · intro h
      rcases hrest : lastWith rest k with _ | s
      · rw [hrest] at h
        intro x hx
        rcases List.mem_cons.mp hx with hx | hx
        · subst hx
          intro hk
          rw [if_pos (by simp [hk])] at h
          exact Option.noConfusion h
        · exact ih.mp hrest x hx
      · rw [hrest] at h
        exact Option.noConfusion h
    · intro h
      have hrest : lastWith rest k = none :=
        ih.mpr (fun x hx => h x (List.mem_cons_of_mem r hx))
      rw [hrest, if_neg]
      simp [h r (List.mem_cons_self r rest)]

theorem lastWith_some_mem {b : List ImageMetadata} {k : String} {s : ImageMetadata}
    (h : lastWith b k = some s) : s ∈ b ∧ s.file_name = k := by
  induction b with
  | nil => simp [lastWith] at h
  | cons r rest ih =>
    rw [lastWith] at h
    rcases hrest : lastWith rest k with _ | t
    · rw [hrest] at h
      by_cases hk : (r.file_name == k) = true
      · rw [if_pos hk] at h
        obtain rfl : r = s := Option.some.inj h
        exact ⟨List.mem_cons_self r rest, by simpa using hk⟩
      · rw [if_neg hk] at h
        exact Option.noConfusion h
    · rw [hrest] at h
      obtain rfl : t = s := Option.some.inj h
      obtain ⟨hm, hn⟩ := ih hrest
      exact ⟨List.mem_cons_of_mem r hm, hn⟩

theorem find_dedupLast (b : List ImageMetadata) (k : String) :
    (dedupLast b).find? (fun s => s.file_name == k) = lastWith b k := by
  induction b with
  | nil => simp [dedupLast, lastWith]
  | cons r rest ih =>
    rw [dedupLast, lastWith]
    by_cases hc : rest.all (fun x => r.file_name != x.file_name) = true
    · rw [if_pos hc]
      by_cases hk : (r.file_name == k) = true
      · have hrest : lastWith rest k = none := by
          refine (lastWith_none_iff rest k).mpr ?_
          intro x hx hxk
          have := List.all_eq_true.mp hc x hx
          have hrk : r.file_name = k := by simpa using hk
          simp [hrk, hxk] at this
        rw [hrest, List.find?_cons, hk]
        simp [hk]
      · rw [List.find?_cons, eq_false_of_ne_true hk, ih]
        rcases hrest : lastWith rest k with _ | s
        · simp [eq_false_of_ne_true hk]
        · rfl
    · rw [if_neg hc, ih]
      rcases hrest : lastWith rest k with _ | s
      · rw [if_neg]
        intro hk
        have hrk : r.file_name = k := by simpa using hk
        have : ∃ x ∈ rest, x.file_name = r.file_name := by
          by_contra hno
          push_neg at hno
          refine hc (List.all_eq_true.mpr ?_)
          intro x hx
          simp [Ne.symm (hno x hx)]
        obtain ⟨x, hx, hxname⟩ := this
        exact (lastWith_none_iff rest k).mp hrest x hx (by rw [hxname, hrk])
      · rfl

/-- C5: For every batch of records, applying `upsertAll`
(`ImageDatabase.add`) twice with the same batch leaves the catalog in
the same state as applying it once; starting from a catalog with unique
filenames the result again has one record per filename; and the record
found under a filename after the batch is the batch's last record with
that filename when there is one (overwrite, not append), and the prior
record otherwise. -/
theorem C5_upsertAll_idempotent (db : ImagesTable) (b : List ImageMetadata) :
    ImageDatabase.add (ImageDatabase.add db b) b = ImageDatabase.add db b
    ∧ ((db.map (fun r => r.file_name)).Nodup →
        ((ImageDatabase.add db b).map (fun r => r.file_name)).Nodup)
    ∧ ∀ k : String,
        (∀ s, lastWith b k = some s →
          (ImageDatabase.add db b).find? (fun r => r.file_name == k) = some s)
        ∧ (lastWith b k = none →
          (ImageDatabase.add db b).find? (fun r => r.file_name == k) =
            db.find? (fun r => r.file_name == k)) := by
  refine ⟨?_, ?_, ?_⟩
  · rw [add_canon db b, add_canon, List.filter_append, List.filter_filter]
    have h1 : (db.filter (fun s => b.all (fun r => s.file_name != r.file_name))).filter
        (fun s => b.all (fun r => s.file_name != r.file_name)) =
        db.filter (fun s => b.all (fun r => s.file_name != r.file_name)) := by
      rw [List.filter_filter]
      exact List.filter_congr (fun a _ => Bool.and_self _)
    have h2 : (dedupLast b).filter
        (fun s => b.all (fun r => s.file_name != r.file_name)) = [] := by
      refine List.filter_eq_nil_iff.mpr ?_
      intro a ha
      simp [all_ne_eq_false_of_mem (mem_dedupLast ha)]
    rw [List.filter_filter] at h1
    rw [h1, h2, List.append_nil]
  · intro hdb
    rw [add_canon, List.map_append]
    refine List.Nodup.append (filter_keys_nodup db _ hdb) (dedupLast_keys_nodup b) ?_
    intro k hk1 hk2
    rcases List.mem_map.mp hk1 with ⟨s, hs, hks⟩
    rcases List.mem_map.mp hk2 with ⟨t, ht, hkt⟩
    have hP := (List.mem_filter.mp hs).2
    have htb := mem_dedupLast ht
    have := List.all_eq_true.mp hP t htb
    simp [hks, hkt] at this
  · intro k
    constructor
    · intro s hs
      obtain ⟨hsb, hsk⟩ := lastWith_some_mem hs
      rw [add_canon, find_append]
      have hnone : (db.filter (fun x => b.all (fun r => x.file_name != r.file_name))).find?
          (fun r => r.file_name == k) = none := by
        refine List.find?_eq_none.mpr ?_
        intro x hx hpx
        have hP := (List.mem_filter.mp hx).2
        have := List.all_eq_true.mp hP s hsb
        have hxk : x.file_name = k := by simpa using hpx
        simp [hxk, hsk] at this
      rw [hnone, find_dedupLast, hs]
    · intro hnone
      have hkeep : (db.filter (fun x => b.all (fun r => x.file_name != r.file_name))).find?
          (fun r => r.file_name == k) = db.find? (fun r => r.file_name == k) := by
        refine find_filter_of_imp db _ _ ?_
        intro a hpa
        have hak : a.file_name = k := by simpa using hpa
        refine List.all_eq_true.mpr ?_
        intro r hr
        have := (lastWith_none_iff b k).mp hnone r hr
        simp [hak]
        exact fun hc => this (by rw [← hc])
      rw [add_canon, find_append, hkeep, find_dedupLast, hnone]
      rcases hf : db.find? (fun r => r.file_name == k) with _ | x <;> rw [hf]

/-- Concrete records for witnesses (content as `ImageMetadata.load`
would produce for a file with no readable tags). -/
def emptyRec (name : String) : ImageMetadata :=
  { file_name := name, rating := 0, aperture := 0, lens_id := "",
    capture_time := "", focal_length := 0, exposure_time := 0,
    color_temperature := 0 }

/-- Witness for C5 at a concrete catalog and batch. -/
theorem C5_upsertAll_idempotent_witness :
    (ImageDatabase.add (ImageDatabase.add [emptyRec "old.jpg"]
        [emptyRec "a.jpg", { emptyRec "a.jpg" with rating := 5 }])
        [emptyRec "a.jpg", { emptyRec "a.jpg" with rating := 5 }] =
      ImageDatabase.add [emptyRec "old.jpg"]
        [emptyRec "a.jpg", { emptyRec "a.jpg" with rating := 5 }])
    ∧ (([emptyRec "old.jpg"].map (fun r => r.file_name)).Nodup ∧
        ((ImageDatabase.add [emptyRec "old.jpg"]
          [emptyRec "a.jpg", { emptyRec "a.jpg" with rating := 5 }]).map
            (fun r => r.file_name)).Nodup)
    ∧ (lastWith [emptyRec "a.jpg", { emptyRec "a.jpg" with rating := 5 }] "a.jpg" =
        some { emptyRec "a.jpg" with rating := 5 } ∧
      (ImageDatabase.add [emptyRec "old.jpg"]
        [emptyRec "a.jpg", { emptyRec "a.jpg" with rating := 5 }]).find?
          (fun r => r.file_name == "a.jpg") =
        some { emptyRec "a.jpg" with rating := 5 }) :=
  ⟨(C5_upsertAll_idempotent [emptyRec "old.jpg"]
      [emptyRec "a.jpg", { emptyRec "a.jpg" with rating := 5 }]).1,
   ⟨by decide,
    (C5_upsertAll_idempotent [emptyRec "old.jpg"]
      [emptyRec "a.jpg", { emptyRec "a.jpg" with rating := 5 }]).2.1 (by decide)⟩,
   ⟨by decide,
    ((C5_upsertAll_idempotent [emptyRec "old.jpg"]
      [emptyRec "a.jpg", { emptyRec "a.jpg" with rating := 5 }]).2.2 "a.jpg").1
      { emptyRec "a.jpg" with rating := 5 } (by decide)⟩⟩

theorem dedupLast_of_nodup_keys (b : List ImageMetadata)
    (h : (b.map (fun r => r.file_name)).Nodup) : dedupLast b = b := by
  induction b with
  | nil => rfl
  | cons r rest ih =>
    rw [List.map_cons, List.nodup_cons] at h
    rw [dedupLast, if_pos, ih h.2]
    refine List.all_eq_true.mpr ?_
    intro x hx
    have : r.file_name ≠ x.file_name := by
      intro heq
      exact h.1 (List.mem_map.mpr ⟨x, hx, heq.symm⟩)
    simp [this]

theorem add_nil_of_nodup_keys (b : List ImageMetadata)
    (h : (b.map (fun r => r.file_name)).Nodup) : ImageDatabase.add [] b = b := by
  rw [add_canon, List.filter_nil, List.nil_append, dedupLast_of_nodup_keys b h]

theorem filterMap_id_length_add_none (l : List (Option ImageMetadata)) :
    (l.filterMap id).length + (l.filter (fun o => o.isNone)).length = l.length := by
  induction l with
  | nil => rfl
  | cons o rest ih =>
    rcases o with _ | v
    · simp only [List.filterMap_cons, id, List.filter_cons, Option.isNone_none,
        if_true, List.length_cons]
      omega
    · simp only [List.filterMap_cons, id, List.filter_cons, Option.isNone_some]
      simp only [Bool.false_eq_true, if_false, List.length_cons]
      omega

/-- C3 (amended): `rebuild` over `N` paths of which `K` fail extraction
clears the prior catalog (the result is independent of it), skips the
failing paths, stores exactly the successfully extracted records in one
batch, and — provided the successful records carry pairwise distinct
filenames — leaves exactly `N − K` records. -/
theorem C3_rebuild_skips_failures (extract : String → Option ImageMetadata)
    (db : ImagesTable) (image_paths : List String) (N K : Nat)
    (hN : image_paths.length = N)
    (hK : (image_paths.filter (fun p => (extract p).isNone)).length = K)
    (hkeys : (((image_paths.map extract).filterMap id).map
      (fun r => r.file_name)).Nodup) :
    ImageDatabase.rebuild extract db image_paths = (image_paths.map extract).filterMap id
    ∧ (ImageDatabase.rebuild extract db image_paths).length = N - K
    ∧ ∀ db' : ImagesTable,
        ImageDatabase.rebuild extract db' image_paths =
          ImageDatabase.rebuild extract db image_paths := by
  have hmain : ImageDatabase.rebuild extract db image_paths =
      (image_paths.map extract).filterMap id := by
    rw [ImageDatabase.rebuild, ImageDatabase.clear, add_nil_of_nodup_keys _ hkeys]
  refine ⟨hmain, ?_, fun db' => rfl⟩
  rw [hmain]
  have hsum := filterMap_id_length_add_none (image_paths.map extract)
  have hfk : ((image_paths.map extract).filter (fun o => o.isNone)).length = K := by
    rw [List.filter_map, List.length_map]
    exact hK
  rw [List.length_map] at hsum
  omega

/-- Witness for C3's amended statement: three paths, one failing
extraction, distinct basenames; exactly `3 − 1 = 2` records remain. -/
theorem C3_rebuild_skips_failures_witness :
    ((["/d/a.jpg", "/d/bad.jpg", "/d/c.jpg"] : List String).length = 3
      ∧ ((["/d/a.jpg", "/d/bad.jpg", "/d/c.jpg"] : List String).filter
          (fun p => ((fun q => if q == "/d/bad.jpg" then none
            else ImageMetadata.load (fun _ => none) q) p).isNone)).length = 1
      ∧ (((["/d/a.jpg", "/d/bad.jpg", "/d/c.jpg"] : List String).map
          (fun q => if q == "/d/bad.jpg" then none
            else ImageMetadata.load (fun _ => none) q)).filterMap id).map
          (fun r => r.file_name) = ["a.jpg", "c.jpg"])
    ∧ (ImageDatabase.rebuild
        (fun q => if q == "/d/bad.jpg" then none
          else ImageMetadata.load (fun _ => none) q)
        [emptyRec "old.jpg"] ["/d/a.jpg", "/d/bad.jpg", "/d/c.jpg"]).length = 3 - 1 :=
  ⟨⟨by decide, by decide, by decide⟩,
   (C3_rebuild_skips_failures
      (fun q => if q == "/d/bad.jpg" then none
        else ImageMetadata.load (fun _ => none) q)
      [emptyRec "old.jpg"] ["/d/a.jpg", "/d/bad.jpg", "/d/c.jpg"] 3 1
      (by decide) (by decide) (by decide)).2.1⟩

/-- Counterexample to C3 as stated: two paths, none failing, but the
two successfully extracted records share the basename `x.jpg`, so the
upsert keyed by filename stores one record, not `N − K = 2 − 0`. -/
theorem C3_counterexample :
    (ImageDatabase.rebuild (fun p => ImageMetadata.load (fun _ => none) p)
        [] ["/a/x.jpg", "/b/x.jpg"]).length ≠
      (["/a/x.jpg", "/b/x.jpg"] : List String).length -
        ((["/a/x.jpg", "/b/x.jpg"] : List String).filter
          (fun p => (ImageMetadata.load (fun _ => none) p).isNone)).length := by
  decide

/-- C2: `containsByFingerprint` (`ImageDatabase.contains`) is true iff
some stored record agrees with the probe on all seven non-key fields —
filenames of both records are irrelevant to the predicate; in
particular it holds for a record re-inserted under another name with
identical content, and fails when no stored record matches on every
non-key field. -/
theorem C2_contains_content_fingerprint (db : ImagesTable) (r : ImageMetadata) :
    (ImageDatabase.contains db r = true ↔
      ∃ s ∈ db, s.rating = r.rating ∧ s.aperture = r.aperture ∧
        s.lens_id = r.lens_id ∧ s.capture_time = r.capture_time ∧
        s.focal_length = r.focal_length ∧ s.exposure_time = r.exposure_time ∧
        s.color_temperature = r.color_temperature)
    ∧ (∀ name2 : String,
        ImageDatabase.contains
          (ImageDatabase.add db [{ r with file_name := name2 }]) r = true)
    ∧ ((∀ s ∈ db, ¬(s.rating = r.rating ∧ s.aperture = r.aperture ∧
        s.lens_id = r.lens_id ∧ s.capture_time = r.capture_time ∧
        s.focal_length = r.focal_length ∧ s.exposure_time = r.exposure_time ∧
        s.color_temperature = r.color_temperature)) →
      ImageDatabase.contains db r = false) := by
  have hiff : ∀ d : ImagesTable, (ImageDatabase.contains d r = true ↔
      ∃ s ∈ d, s.rating = r.rating ∧ s.aperture = r.aperture ∧
        s.lens_id = r.lens_id ∧ s.capture_time = r.capture_time ∧
        s.focal_length = r.focal_length ∧ s.exposure_time = r.exposure_time ∧
        s.color_temperature = r.color_temperature) := by
    intro d
    rw [ImageDatabase.contains, List.any_eq_true]
    constructor
    · rintro ⟨s, hs, hpred⟩
      refine ⟨s, hs, ?_⟩
      simp only [Bool.and_eq_true, beq_iff_eq] at hpred
      tauto
    · rintro ⟨s, hs, h1, h2, h3, h4, h5, h6, h7⟩
      refine ⟨s, hs, ?_⟩
      simp [h1, h2, h3, h4, h5, h6, h7]
  refine ⟨hiff db, ?_, ?_⟩
  · intro name2
    refine (hiff _).mpr ?_
    refine ⟨{ r with file_name := name2 }, ?_, by simp⟩
    have : ImageDatabase.add db [{ r with file_name := name2 }] =
        upsert1 db { r with file_name := name2 } := rfl
    rw [this, upsert1]
    exact List.mem_append_right _ (List.mem_singleton.mpr rfl)
  · intro hnone
    rcases hc : ImageDatabase.contains db r with _ | _
    · rfl
    · exfalso
      obtain ⟨s, hs, hfields⟩ := (hiff db).mp hc
      exact hnone s hs hfields

/-- Witness for C2 at concrete records: a record stored as `A.jpg` is
found by a probe named `B.jpg` with identical content, and a probe
differing in a single non-key field (rating) is not found. -/
theorem C2_contains_content_fingerprint_witness :
    (ImageDatabase.contains [emptyRec "A.jpg"] { emptyRec "B.jpg" with rating := 9 } = true ↔
      ∃ s ∈ [emptyRec "A.jpg"],
        s.rating = ({ emptyRec "B.jpg" with rating := 9 } : ImageMetadata).rating ∧
        s.aperture = ({ emptyRec "B.jpg" with rating := 9 } : ImageMetadata).aperture ∧
        s.lens_id = ({ emptyRec "B.jpg" with rating := 9 } : ImageMetadata).lens_id ∧
        s.capture_time = ({ emptyRec "B.jpg" with rating := 9 } : ImageMetadata).capture_time ∧
        s.focal_length = ({ emptyRec "B.jpg" with rating := 9 } : ImageMetadata).focal_length ∧
        s.exposure_time = ({ emptyRec "B.jpg" with rating := 9 } : ImageMetadata).exposure_time ∧
        s.color_temperature = ({ emptyRec "B.jpg" with rating := 9 } : ImageMetadata).color_temperature)
    ∧ ImageDatabase.contains
        (ImageDatabase.add [emptyRec "A.jpg"]
          [{ ({ emptyRec "B.jpg" with rating := 9 } : ImageMetadata) with
              file_name := "C.jpg" }])
        { emptyRec "B.jpg" with rating := 9 } = true
    ∧ ((∀ s ∈ [emptyRec "A.jpg"],
          ¬(s.rating = ({ emptyRec "B.jpg" with rating := 9 } : ImageMetadata).rating ∧
            s.aperture = ({ emptyRec "B.jpg" with rating := 9 } : ImageMetadata).aperture ∧
            s.lens_id = ({ emptyRec "B.jpg" with rating := 9 } : ImageMetadata).lens_id ∧
            s.capture_time = ({ emptyRec "B.jpg" with rating := 9 } : ImageMetadata).capture_time ∧
            s.focal_length = ({ emptyRec "B.jpg" with rating := 9 } : ImageMetadata).focal_length ∧
            s.exposure_time = ({ emptyRec "B.jpg" with rating := 9 } : ImageMetadata).exposure_time ∧
            s.color_temperature = ({ emptyRec "B.jpg" with rating := 9 } : ImageMetadata).color_temperature))
        ∧ ImageDatabase.contains [emptyRec "A.jpg"]
            { emptyRec "B.jpg" with rating := 9 } = false) :=
  ⟨(C2_contains_content_fingerprint [emptyRec "A.jpg"]
      { emptyRec "B.jpg" with rating := 9 }).1,
   (C2_contains_content_fingerprint [emptyRec "A.jpg"]
      { emptyRec "B.jpg" with rating := 9 }).2.1 "C.jpg",
   ⟨by decide,
    (C2_contains_content_fingerprint [emptyRec "A.jpg"]
      { emptyRec "B.jpg" with rating := 9 }).2.2 (by decide)⟩⟩

theorem find_completed {n : Nat} (order : List (Fin n)) (i : Fin n)
    (f : Fin n → Option ImageMetadata) (h : i ∈ order) :
    (order.map (fun j => (j.val, f j))).find? (fun c => c.1 == i.val) =
      some (i.val, f i) := by
  induction order with
  | nil => simp at h
  | cons j rest ih =>
    rw [List.map_cons, List.find?_cons]
    by_cases hj : (j.val == i.val) = true
    · have : j = i := Fin.ext (by simpa using hj)
      subst this
      simp
    · have hne : j ≠ i := fun he => hj (by simp [he])
      have hfalse : ((j : Nat) == (i : Nat)) = false := eq_false_of_ne_true hj
      simp only [hfalse]
      exact ih (List.mem_of_ne_of_mem (Ne.symm hne) h)

/-- C4: the stored set produced by `rebuild` does not depend on the
completion order of the extraction workers — for every schedule that
completes each path exactly once (any permutation of the task indices),
the scheduled run equals the sequential run, because results are paired
back to their originating path by index before filtering and storing. -/
theorem C4_rebuild_schedule_independent (extract : String → Option ImageMetadata)
    (db : ImagesTable) (image_paths : List String)
    (order : List (Fin image_paths.length))
    (h : order.Perm (List.finRange image_paths.length)) :
    ImageDatabase.rebuildSched extract db image_paths order =
      ImageDatabase.rebuild extract db image_paths := by
  rw [ImageDatabase.rebuildSched, ImageDatabase.rebuild]
  have hres : (List.finRange image_paths.length).map
      (fun i => ((((order.map (fun j => (j.val, extract (image_paths.get j)))).find?
        (fun c => c.1 == i.val)).map Prod.snd).getD none)) =
      image_paths.map extract := by
    have hstep : (List.finRange image_paths.length).map
        (fun i => ((((order.map (fun j => (j.val, extract (image_paths.get j)))).find?
          (fun c => c.1 == i.val)).map Prod.snd).getD none)) =
        (List.finRange image_paths.length).map
          (fun i => extract (image_paths.get i)) := by
      refine List.map_congr_left ?_
      intro i hi
      have hmem : i ∈ order := h.mem_iff.mpr (List.mem_finRange i)
      rw [find_completed order i (fun j => extract (image_paths.get j)) hmem]
      rfl
    rw [hstep, show (fun i => extract (image_paths.get i)) =
      extract ∘ image_paths.get from rfl, ← List.map_map,
      List.finRange_map_get]
  simp only [hres]

/-- A concrete out-of-order schedule for the C4 witness. -/
def cexOrder : List (Fin (["/d/a.jpg", "/d/bad.jpg", "/d/c.jpg"] : List String).length) :=
  [⟨2, by decide⟩, ⟨0, by decide⟩, ⟨1, by decide⟩]

/-- Witness for C4: a three-path rebuild scheduled out of order equals
the sequential rebuild. -/
theorem C4_rebuild_schedule_independent_witness :
    cexOrder.Perm (List.finRange (["/d/a.jpg", "/d/bad.jpg", "/d/c.jpg"] : List String).length)
    ∧ ImageDatabase.rebuildSched
        (fun q => if q == "/d/bad.jpg" then none
          else ImageMetadata.load (fun _ => none) q)
        [emptyRec "old.jpg"] ["/d/a.jpg", "/d/bad.jpg", "/d/c.jpg"] cexOrder =
      ImageDatabase.rebuild
        (fun q => if q == "/d/bad.jpg" then none
          else ImageMetadata.load (fun _ => none) q)
        [emptyRec "old.jpg"] ["/d/a.jpg", "/d/bad.jpg", "/d/c.jpg"] :=
  ⟨by decide,
   C4_rebuild_schedule_independent
     (fun q => if q == "/d/bad.jpg" then none
       else ImageMetadata.load (fun _ => none) q)
     [emptyRec "old.jpg"] ["/d/a.jpg", "/d/bad.jpg", "/d/c.jpg"] cexOrder (by decide)⟩

theorem load_fields {md : String → Option TagVal} {path : String} {r : ImageMetadata}
    (h : ImageMetadata.load md path = some r) :
    tagInt md "XMP:Rating" 0 = some r.rating
    ∧ tagFloat md "EXIF:FNumber" 0 = some r.aperture
    ∧ tagFloat md "EXIF:FocalLength" 0 = some r.focal_length
    ∧ tagFloat md "EXIF:ExposureTime" 0 = some r.exposure_time
    ∧ tagInt md "EXIF:WhiteBalance" 0 = some r.color_temperature
    ∧ r.file_name = basename path
    ∧ r.lens_id = tagStr md "Composite:LensSpec" ""
    ∧ r.capture_time = tagStr md "EXIF:DateTimeOriginal" "" := by
  rw [ImageMetadata.load] at h
  rcases h1 : tagInt md "XMP:Rating" 0 with _ | a
  · rw [h1, Option.none_bind] at h
    exact absurd h (by simp)
  rw [h1, Option.some_bind] at h
  rcases h2 : tagFloat md "EXIF:FNumber" 0 with _ | b
  · rw [h2, Option.none_bind] at h
    exact absurd h (by simp)
  rw [h2, Option.some_bind] at h
  rcases h3 : tagFloat md "EXIF:FocalLength" 0 with _ | c
  · rw [h3, Option.none_bind] at h
    exact absurd h (by simp)
  rw [h3, Option.some_bind] at h
  rcases h4 : tagFloat md "EXIF:ExposureTime" 0 with _ | d
  · rw [h4, Option.none_bind] at h
    exact absurd h (by simp)
  rw [h4, Option.some_bind] at h
  rcases h5 : tagInt md "EXIF:WhiteBalance" 0 with _ | e
  · rw [h5, Option.none_bind] at h
    exact absurd h (by simp)
  rw [h5, Option.some_bind] at h
  obtain rfl := (Option.some.inj h).symm
  exact ⟨rfl, rfl, rfl, rfl, rfl, rfl, rfl, rfl⟩

/-- C6: `ImageMetadata.load` always names the record after the base
name of the path; absent tags yield the exact defaults (rating 0,
aperture 0.0, lens id "", capture time "", focal length 0.0, exposure
time 0.0, color temperature 0); and a present but non-coercible numeric
tag fails the whole extraction (no per-field defaulting). -/
theorem C6_load_defaults_and_failure (md : String → Option TagVal) (path : String) :
    (∀ r, ImageMetadata.load md path = some r → r.file_name = basename path)
    ∧ ImageMetadata.load (fun _ => none) path =
        some { file_name := basename path, rating := 0, aperture := 0, lens_id := "",
               capture_time := "", focal_length := 0, exposure_time := 0,
               color_temperature := 0 }
    ∧ (∀ r, ImageMetadata.load md path = some r →
        (md "XMP:Rating" = none → r.rating = 0)
        ∧ (md "EXIF:FNumber" = none → r.aperture = 0)
        ∧ (md "Composite:LensSpec" = none → r.lens_id = "")
        ∧ (md "EXIF:DateTimeOriginal" = none → r.capture_time = "")
        ∧ (md "EXIF:FocalLength" = none → r.focal_length = 0)
        ∧ (md "EXIF:ExposureTime" = none → r.exposure_time = 0)
        ∧ (md "EXIF:WhiteBalance" = none → r.color_temperature = 0))
    ∧ (((∃ v, md "XMP:Rating" = some v ∧ pyInt v = none)
        ∨ (∃ v, md "EXIF:FNumber" = some v ∧ pyFloat v = none)
        ∨ (∃ v, md "EXIF:FocalLength" = some v ∧ pyFloat v = none)
        ∨ (∃ v, md "EXIF:ExposureTime" = some v ∧ pyFloat v = none)
        ∨ (∃ v, md "EXIF:WhiteBalance" = some v ∧ pyInt v = none)) →
      ImageMetadata.load md path = none) := by
  refine ⟨?_, rfl, ?_, ?_⟩
  · intro r h
    exact (load_fields h).2.2.2.2.2.1
  · intro r h
    obtain ⟨f1, f2, f3, f4, f5, _f6, f7, f8⟩ := load_fields h
    refine ⟨?_, ?_, ?_, ?_, ?_, ?_, ?_⟩ <;> intro hnone
    · simp [tagInt, hnone] at f1
      exact f1.symm
    · simp [tagFloat, hnone] at f2
      exact f2.symm
    · simp [tagStr, hnone] at f7
      exact f7
    · simp [tagStr, hnone] at f8
      exact f8
    · simp [tagFloat, hnone] at f3
      exact f3.symm
    · simp [tagFloat, hnone] at f4
      exact f4.symm
    · simp [tagInt, hnone] at f5
      exact f5.symm
  · intro hdisj
    rcases hl : ImageMetadata.load md path with _ | r
    · rfl
    exfalso
    obtain ⟨f1, f2, f3, f4, f5, _, _, _⟩ := load_fields hl
    rcases hdisj with ⟨v, hv, hn⟩ | ⟨v, hv, hn⟩ | ⟨v, hv, hn⟩ | ⟨v, hv, hn⟩ | ⟨v, hv, hn⟩
    · simp [tagInt, hv, hn] at f1
    · simp [tagFloat, hv, hn] at f2
    · simp [tagFloat, hv, hn] at f3
    · simp [tagFloat, hv, hn] at f4
    · simp [tagInt, hv, hn] at f5

/-- Witness for C6: a file with no readable tags yields the default
record named after the path's basename; a malformed `XMP:Rating` value
(the string `junk`) fails the whole extraction. -/
theorem C6_load_defaults_and_failure_witness :
    (ImageMetadata.load (fun _ => none) "/tmp/pic.jpg" = some
      { file_name := "pic.jpg", rating := 0, aperture := 0, lens_id := "",
        capture_time := "", focal_length := 0, exposure_time := 0,
        color_temperature := 0 })
    ∧ ((fun k : String => if k == "XMP:Rating" then some (TagVal.str "junk") else none)
          "XMP:Rating" = some (TagVal.str "junk")
        ∧ pyInt (TagVal.str "junk") = none)
    ∧ ImageMetadata.load
        (fun k => if k == "XMP:Rating" then some (TagVal.str "junk") else none)
        "/tmp/pic.jpg" = none :=
  ⟨(C6_load_defaults_and_failure (fun _ => none) "/tmp/pic.jpg").2.1,
   ⟨by decide, by decide⟩,
   (C6_load_defaults_and_failure
      (fun k => if k == "XMP:Rating" then some (TagVal.str "junk") else none)
      "/tmp/pic.jpg").2.2.2
     (Or.inl ⟨TagVal.str "junk", by decide, by decide⟩)⟩

/-- `true` exactly on `Except.error`. -/
def exceptIsError {α : Type} (e : Except CamError α) : Bool :=
  match e with
  | .error _ => true
  | .ok _ => false

theorem download_reduce (cam : CameraState) (camera_info : CameraInfo)
    (days : Nat) (destination : String) (now : Int)
    (h : ¬cam.enumLen ≤ camera_info.index) :
    CameraClient.download_new_files cam camera_info days destination now =
      (if ((collectImages cam.tree "/" []).filter
          (fun e => isRecent e.2 (now - (days : Int) * 86400))).isEmpty then .ok []
       else .ok (((collectImages cam.tree "/" []).filter
          (fun e => isRecent e.2 (now - (days : Int) * 86400))).map
            (fun e => osPathJoin destination (basename e.1)))) := by
  rw [CameraClient.download_new_files, CameraClient.list_new_files,
    CameraClient.list_images, if_neg h]
  simp only [if_neg h]

/-- C7: the stale-handle check — `list_files`, `list_images`, and the
download path all raise `DeviceIndexError` exactly when the handle's
index is at or beyond the length of the fresh enumeration (the invalid
positions), and run on the handle's device otherwise. -/
theorem C7_device_index_error_iff (cam : CameraState) (camera_info : CameraInfo)
    (days : Nat) (destination : String) (now : Int) :
    (exceptIsError (CameraClient.list_files cam camera_info) = true ↔
      cam.enumLen ≤ camera_info.index)
    ∧ (exceptIsError (CameraClient.list_images cam camera_info) = true ↔
      cam.enumLen ≤ camera_info.index)
    ∧ (exceptIsError (CameraClient.download_new_files cam camera_info days destination now)
        = true ↔ cam.enumLen ≤ camera_info.index) := by
  by_cases h : cam.enumLen ≤ camera_info.index
  · refine ⟨?_, ?_, ?_⟩ <;>
      simp [CameraClient.list_files, CameraClient.list_images,
        CameraClient.download_new_files, CameraClient.list_new_files,
        h, exceptIsError]
  · refine ⟨?_, ?_, ?_⟩
    · simp [CameraClient.list_files, h, exceptIsError]
    · simp [CameraClient.list_images, h, exceptIsError]
    · rw [download_reduce cam camera_info days destination now h]
      split <;> simp [exceptIsError, h]

/-- C10: a listed file whose device-reported info lacks the `file`
attribute or the `mtime` field is treated as having modification time
`0` (explicitly so for a missing `mtime`; a missing `file` attribute
short-circuits the test), hence is excluded from the recency filter's
output whenever the cutoff `now − days·86400` is positive — without
raising an error. -/
theorem C10_missing_mtime_excluded (cam : CameraState) (camera_info : CameraInfo)
    (days : Nat) (now : Int) (p : String) (i : CameraFileInfo)
    (hidx : camera_info.index < cam.enumLen)
    (hcut : 0 < now - (days : Int) * 86400)
    (hmiss : i.file = none ∨ ∃ f, i.file = some f ∧ f.mtime = none) :
    (∀ f c, i.file = some f → f.mtime = none → isRecent i c = decide (c ≤ 0))
    ∧ ∃ l, CameraClient.list_new_files cam camera_info days now = .ok l
        ∧ (p, i) ∉ l := by
  constructor
  · intro f c hf hm
    have hstep : isRecent i c = decide (c ≤ f.mtime.getD 0) := by
      rw [isRecent, hf]
    rw [hstep, hm, Option.getD_none]
  · have hnot : isRecent i (now - (days : Int) * 86400) = false := by
      rcases hmiss with hf | ⟨f, hf, hm⟩
      · rw [isRecent, hf]
      · have hstep : isRecent i (now - (days : Int) * 86400) =
            decide ((now - (days : Int) * 86400) ≤ f.mtime.getD 0) := by
          rw [isRecent, hf]
        rw [hstep, hm, Option.getD_none]
        exact decide_eq_false (by omega)
    refine ⟨(collectImages cam.tree "/" []).filter
      (fun e => isRecent e.2 (now - (days : Int) * 86400)), ?_, ?_⟩
    · rw [CameraClient.list_new_files, CameraClient.list_images,
        if_neg (Nat.not_le.mpr hidx)]
    · intro hmem
      have := (List.mem_filter.mp hmem).2
      rw [hnot] at this
      exact Bool.noConfusion this

/-- Witness for C10: a tree with one tag-less file (`file` attribute
absent) and one file without `mtime`; with `days = 1` and `now` one
full day past the epoch the filter keeps nothing. -/
theorem C10_missing_mtime_excluded_witness :
    ((0 : Nat) < 1 ∧ (0 : Int) < 86500 - (1 : Int) * 86400
      ∧ (CameraFileInfo.mk (some (FileField.mk none))).file =
          some (FileField.mk none))
    ∧ (∀ f c, (CameraFileInfo.mk (some (FileField.mk none))).file = some f →
        f.mtime = none →
        isRecent (CameraFileInfo.mk (some (FileField.mk none))) c = decide (c ≤ 0))
    ∧ ∃ l, CameraClient.list_new_files
        (CameraState.mk 1 (CamFolder.node
          [("A.JPG", CameraFileInfo.mk none),
           ("B.JPG", CameraFileInfo.mk (some (FileField.mk none)))] []))
        (CameraInfo.mk 0 1 2 "m" "p") 1 86500 = .ok l
      ∧ ("/B.JPG", CameraFileInfo.mk (some (FileField.mk none))) ∉ l :=
  ⟨⟨by decide, by decide, rfl⟩,
   (C10_missing_mtime_excluded
      (CameraState.mk 1 (CamFolder.node
        [("A.JPG", CameraFileInfo.mk none),
         ("B.JPG", CameraFileInfo.mk (some (FileField.mk none)))] []))
      (CameraInfo.mk 0 1 2 "m" "p") 1 86500 "/B.JPG"
      (CameraFileInfo.mk (some (FileField.mk none)))
      (by decide) (by decide)
      (Or.inr ⟨FileField.mk none, rfl, rfl⟩)).1,
   (C10_missing_mtime_excluded
      (CameraState.mk 1 (CamFolder.node
        [("A.JPG", CameraFileInfo.mk none),
         ("B.JPG", CameraFileInfo.mk (some (FileField.mk none)))] []))
      (CameraInfo.mk 0 1 2 "m" "p") 1 86500 "/B.JPG"
      (CameraFileInfo.mk (some (FileField.mk none)))
      (by decide) (by decide)
      (Or.inr ⟨FileField.mk none, rfl, rfl⟩)).2⟩

/-! ## Enumeration dispositions -/

theorem processPort_index {uf : Int → Int → Option UsbDevice}
    {gs : UsbDevice → Nat → Except String (Option String)}
    {idx : Nat} {port : String} {c : CameraInfo}
    (h : processPort uf gs idx port = some c) : c.index = idx := by
  rw [processPort] at h
  repeat' split at h
  all_goals first
    | exact Option.noConfusion h
    | (obtain rfl := (Option.some.inj h).symm; rfl)

theorem lccAux_mem_intro (uf : Int → Int → Option UsbDevice)
    (gs : UsbDevice → Nat → Except String (Option String)) :
    ∀ (A : List (String × String)) (k idx : Nat) (e : String × String) (c : CameraInfo),
      A.get? idx = some e → processPort uf gs (k + idx) e.2 = some c →
      c ∈ lccAux uf gs k A := by
  intro A
  induction A with
  | nil =>
    intro k idx e c hget _
    simp at hget
  | cons x rest ih =>
    intro k idx e c hget hproc
    rcases idx with _ | j
    · obtain rfl : x = e := by simpa using hget
      rw [Nat.add_zero] at hproc
      rw [lccAux, hproc]
      exact List.mem_cons_self c _
    · have hget' : rest.get? j = some e := by simpa using hget
      have hproc' : processPort uf gs ((k + 1) + j) e.2 = some c := by
        rw [show (k + 1) + j = k + (j + 1) by omega]
        exact hproc
      have hmem := ih (k + 1) j e c hget' hproc'
      rw [lccAux]
      rcases hp : processPort uf gs k x.2 with _ | c'
      · exact hmem
      · exact List.mem_cons_of_mem c' hmem

theorem lccAux_mem_elim (uf : Int → Int → Option UsbDevice)
    (gs : UsbDevice → Nat → Except String (Option String)) :
    ∀ (A : List (String × String)) (k : Nat) (c : CameraInfo),
      c ∈ lccAux uf gs k A →
      ∃ idx e, A.get? idx = some e ∧ processPort uf gs (k + idx) e.2 = some c := by
  intro A
  induction A with
  | nil =>
    intro k c hc
    rw [lccAux] at hc
    simp at hc
  | cons x rest ih =>
    intro k c hc
    rw [lccAux] at hc
    have step : c ∈ lccAux uf gs (k + 1) rest →
        ∃ idx e, (x :: rest).get? idx = some e ∧
          processPort uf gs (k + idx) e.2 = some c := by
      intro hmem
      obtain ⟨j, e, hget, hproc⟩ := ih (k + 1) c hmem
      refine ⟨j + 1, e, by simpa using hget, ?_⟩
      rw [show k + (j + 1) = (k + 1) + j by omega]
      exact hproc
    rcases hp : processPort uf gs k x.2 with _ | c'
    · rw [hp] at hc
      exact step hc
    · rw [hp] at hc
      rcases List.mem_cons.mp hc with rfl | hmem
      · exact ⟨0, x, rfl, by rw [Nat.add_zero]; exact hp⟩
      · exact step hmem

theorem lccAux_all_skip (uf : Int → Int → Option UsbDevice)
    (gs : UsbDevice → Nat → Except String (Option String)) :
    ∀ (A : List (String × String)) (k : Nat),
      (∀ e ∈ A, ¬(strTake e.2 4 == "usb:") = true) → lccAux uf gs k A = [] := by
  intro A
  induction A with
  | nil => intro k _; rfl
  | cons x rest ih =>
    intro k h
    have hx : processPort uf gs k x.2 = none := by
      rw [processPort, if_neg (h x (List.mem_cons_self x rest))]
    rw [lccAux, hx]
    exact ih (k + 1) (fun e he => h e (List.mem_cons_of_mem x he))

/-- C9 (amended): devices whose port does not start with `usb:` are
skipped without error; a device whose identity strings resolve to no
value (`None`/empty) is still included with the placeholder `Unknown`;
but a device whose identity-string resolution raises is skipped
(logged), not included — while the enumeration as a whole still
returns normally. -/
theorem C9_enumeration_dispositions (A : List (String × String))
    (usbFind : Int → Int → Option UsbDevice)
    (getString : UsbDevice → Nat → Except String (Option String)) :
    ((∀ e ∈ A, ¬(strTake e.2 4 == "usb:") = true) →
      CameraClient.list_connected_cameras A usbFind getString = [])
    ∧ (∀ (idx : Nat) (name port bs ds : String) (bus device : Int) (d : UsbDevice),
        A.get? idx = some (name, port) →
        (strTake port 4 == "usb:") = true →
        splitChar ',' (strDrop port 4) = [bs, ds] →
        pyParseInt bs = some bus →
        pyParseInt ds = some device →
        usbFind bus device = some d →
        getString d d.iManufacturer = .ok none →
        getString d d.iProduct = .ok none →
        CameraInfo.mk idx bus device "Unknown" "Unknown" ∈
          CameraClient.list_connected_cameras A usbFind getString)
    ∧ (∀ (idx : Nat) (name port bs ds : String) (bus device : Int) (d : UsbDevice)
        (msg : String),
        A.get? idx = some (name, port) →
        (strTake port 4 == "usb:") = true →
        splitChar ',' (strDrop port 4) = [bs, ds] →
        pyParseInt bs = some bus →
        pyParseInt ds = some device →
        usbFind bus device = some d →
        getString d d.iManufacturer = .error msg →
        ∀ c ∈ CameraClient.list_connected_cameras A usbFind getString,
          c.index ≠ idx) := by
  refine ⟨?_, ?_, ?_⟩
  · intro h
    exact lccAux_all_skip usbFind getString A 0 h
  · intro idx name port bs ds bus device d hget husb hsplit hb hd hfind hm hp
    have hproc : processPort usbFind getString idx port =
        some (CameraInfo.mk idx bus device "Unknown" "Unknown") := by
      rw [processPort, if_pos husb]
      simp only [hsplit, hb, hd, hfind, hm, hp]
      rfl
    have := lccAux_mem_intro usbFind getString A 0 idx (name, port)
      (CameraInfo.mk idx bus device "Unknown" "Unknown") hget
      (by rw [Nat.zero_add]; exact hproc)
    exact this
  · intro idx name port bs ds bus device d msg hget husb hsplit hb hd hfind herr
    intro c hc hcidx
    obtain ⟨j, e, hgetj, hproc⟩ :=
      lccAux_mem_elim usbFind getString A 0 c hc
    rw [Nat.zero_add] at hproc
    have hj : c.index = j := processPort_index hproc
    have : j = idx := by rw [← hj, hcidx]
    subst this
    have he : e = (name, port) := by
      rw [hget] at hgetj
      exact (Option.some.inj hgetj).symm
    rw [he] at hproc
    have hnone : processPort usbFind getString j port = none := by
      rw [processPort, if_pos husb]
      simp only [hsplit, hb, hd, hfind, herr]
    rw [hnone] at hproc
    exact Option.noConfusion hproc

/-- pyusb lookup for the C9 scenarios: one device at bus 1, address 2,
with string indices 3 (manufacturer) and 4 (product). -/
def c9Find : Int → Int → Option UsbDevice :=
  fun bus device => if bus == 1 && device == 2 then some ⟨3, 4⟩ else none

/-- `usb.util.get_string` that resolves no value (returns `None`). -/
def c9GetNone : UsbDevice → Nat → Except String (Option String) :=
  fun _ _ => .ok none

/-- `usb.util.get_string` that raises. -/
def c9GetErr : UsbDevice → Nat → Except String (Option String) :=
  fun _ _ => .error "USBError"

/-- Witness for C9's amended statement: a non-`usb:` port is skipped
leaving an empty enumeration, and a `usb:1,2` device whose identity
strings resolve to `None` is included as `Unknown`/`Unknown`. -/
theorem C9_enumeration_dispositions_witness :
    ((∀ e ∈ ([("x", "ptp:0")] : List (String × String)),
        ¬(strTake e.2 4 == "usb:") = true)
      ∧ CameraClient.list_connected_cameras [("x", "ptp:0")] c9Find c9GetNone = [])
    ∧ CameraInfo.mk 1 1 2 "Unknown" "Unknown" ∈
        CameraClient.list_connected_cameras [("x", "ptp:0"), ("cam", "usb:1,2")]
          c9Find c9GetNone :=
  ⟨⟨by decide,
    (C9_enumeration_dispositions [("x", "ptp:0")] c9Find c9GetNone).1 (by decide)⟩,
   (C9_enumeration_dispositions [("x", "ptp:0"), ("cam", "usb:1,2")]
      c9Find c9GetNone).2.1 1 "cam" "usb:1,2" "1" "2" 1 2 ⟨3, 4⟩
     (by decide) (by decide) (by decide) (by decide) (by decide) (by decide)
     rfl rfl⟩

/-- Counterexample to C9 as stated: the attached device reports the
recognizable transport address `usb:1,2` and is found on the bus, but
resolving its identity strings raises; the source's `except` arm drops
the device entirely instead of including it with a placeholder — the
enumeration comes back empty. -/
theorem C9_counterexample :
    CameraClient.list_connected_cameras [("cam", "usb:1,2")] c9Find c9GetErr = []
    ∧ ¬∃ c ∈ CameraClient.list_connected_cameras [("cam", "usb:1,2")] c9Find c9GetErr,
        c.index = 0 := by
  decide

/-! ## Recursive discovery: completeness, uniqueness, order (C8) -/

/-- A usable file/folder name on the device: nonempty and free of the
path separator. -/
def validNameB (s : String) : Bool :=
  !s.data.isEmpty && s.data.all (fun c => c != '/')

/-- No string occurs twice. -/
def nodupStr : List String → Bool
  | [] => true
  | x :: xs => !xs.contains x && nodupStr xs

mutual

/-- Well-formed device tree: every file and folder name is valid, the
names inside one folder are pairwise distinct, recursively. -/
def wfTree : CamFolder → Bool
  | .node files subs =>
    files.all (fun f => validNameB f.1) && subs.all (fun s => validNameB s.1) &&
    nodupStr (files.map Prod.fst) && nodupStr (subs.map Prod.fst) &&
    wfSubs subs

def wfSubs : List (String × CamFolder) → Bool
  | [] => true
  | (_, sub) :: rest => wfTree sub && wfSubs rest

end

mutual

/-- Address of each reachable file: the folder names on the way down,
then the file's own name, in discovery order. -/
def fileAddrs : CamFolder → List (List String)
  | .node files subs => files.map (fun f => [f.1]) ++ fileAddrsSubs subs

def fileAddrsSubs : List (String × CamFolder) → List (List String)
  | [] => []
  | (n, sub) :: rest => (fileAddrs sub).map (fun a => n :: a) ++ fileAddrsSubs rest

end

/-- Rebuilding the full path of an address by repeated `os.path.join`,
exactly as the recursive walk does. -/
def renderAddr (p : String) (a : List String) : String :=
  a.foldl osPathJoin p

mutual

theorem walk_eq : ∀ (t : CamFolder) (p : String),
    listFilesWalk t p = (fileAddrs t).map (renderAddr p)
  | .node files subs, p => by
    rw [listFilesWalk, fileAddrs, List.map_append, List.map_map,
      walkSubs_eq subs p]
    refine congrArg (· ++ _) ?_
    exact List.map_congr_left (fun f _ => rfl)

theorem walkSubs_eq : ∀ (subs : List (String × CamFolder)) (p : String),
    listFilesWalkSubs subs p = (fileAddrsSubs subs).map (renderAddr p)
  | [], p => rfl
  | (n, sub) :: rest, p => by
    rw [listFilesWalkSubs, fileAddrsSubs, List.map_append, List.map_map,
      walk_eq sub (osPathJoin p n), walkSubs_eq rest p]
    refine congrArg (· ++ _) ?_
    exact List.map_congr_left (fun a _ => rfl)

end

theorem mem_fileAddrsSubs {a : List String} :
    ∀ {subs : List (String × CamFolder)}, a ∈ fileAddrsSubs subs →
      ∃ n sub b, (n, sub) ∈ subs ∧ b ∈ fileAddrs sub ∧ a = n :: b := by
  intro subs
  induction subs with
  | nil => intro h; simp [fileAddrsSubs] at h
  | cons x rest ih =>
    intro h
    rcases x with ⟨n, sub⟩
    rw [fileAddrsSubs] at h
    rcases List.mem_append.mp h with h | h
    · rcases List.mem_map.mp h with ⟨b, hb, rfl⟩
      exact ⟨n, sub, b, List.mem_cons_self _ _, hb, rfl⟩
    · obtain ⟨n', sub', b, hmem, hb, rfl⟩ := ih h
      exact ⟨n', sub', b, List.mem_cons_of_mem _ hmem, hb, rfl⟩

theorem fileAddrs_ne_nil {a : List String} {t : CamFolder}
    (h : a ∈ fileAddrs t) : a ≠ [] := by
  rcases t with ⟨files, subs⟩
  rw [fileAddrs] at h
  rcases List.mem_append.mp h with h | h
  · rcases List.mem_map.mp h with ⟨f, _, rfl⟩
    exact List.cons_ne_nil _ _
  · obtain ⟨n, sub, b, _, _, rfl⟩ := mem_fileAddrsSubs h
    exact List.cons_ne_nil _ _

theorem nodupStr_cons {x : String} {xs : List String}
    (h : nodupStr (x :: xs) = true) : x ∉ xs ∧ nodupStr xs = true := by
  rw [nodupStr, Bool.and_eq_true] at h
  refine ⟨?_, h.2⟩
  intro hm
  have hc := h.1
  rw [Bool.not_eq_true'] at hc
  rw [show xs.contains x = true from List.elem_eq_true_of_mem hm] at hc
  exact Bool.noConfusion hc

theorem nodupStr_nodup : ∀ {l : List String}, nodupStr l = true → l.Nodup := by
  intro l
  induction l with
  | nil => intro _; exact List.nodup_nil
  | cons x xs ih =>
    intro h
    obtain ⟨hx, hxs⟩ := nodupStr_cons h
    exact List.nodup_cons.mpr ⟨hx, ih hxs⟩

mutual

theorem fileAddrs_nodup : ∀ (t : CamFolder), wfTree t = true → (fileAddrs t).Nodup
  | .node files subs, h => by
    rw [wfTree] at h
    simp only [Bool.and_eq_true] at h
    obtain ⟨⟨⟨⟨_hf, _hs⟩, hnf⟩, hns⟩, hw⟩ := h
    rw [fileAddrs]
    refine List.Nodup.append ?_ (fileAddrsSubs_nodup subs hns hw) ?_
    · have hmm : files.map (fun f => ([f.1] : List String)) =
          (files.map Prod.fst).map (fun x => [x]) := by
        rw [List.map_map]
        exact List.map_congr_left (fun f _ => rfl)
      rw [hmm]
      exact (nodupStr_nodup hnf).map (fun a b hab => by simpa using hab)
    · intro a ha hb
      rcases List.mem_map.mp ha with ⟨f, _, rfl⟩
      obtain ⟨n, sub, b, _, hbmem, heq⟩ := mem_fileAddrsSubs hb
      have hbne := fileAddrs_ne_nil hbmem
      exact hbne (List.cons.inj heq).2.symm

theorem fileAddrsSubs_nodup : ∀ (subs : List (String × CamFolder)),
    nodupStr (subs.map Prod.fst) = true → wfSubs subs = true →
    (fileAddrsSubs subs).Nodup
  | [], _, _ => List.nodup_nil
  | (n, sub) :: rest, hns, hw => by
    rw [wfSubs, Bool.and_eq_true] at hw
    rw [List.map_cons] at hns
    have hcons := nodupStr_cons hns
    rw [fileAddrsSubs]
    refine List.Nodup.append ?_ (fileAddrsSubs_nodup rest hcons.2 hw.2) ?_
    · exact (fileAddrs_nodup sub hw.1).map (fun a b hab => (List.cons.inj hab).2)
    · intro a ha hb
      rcases List.mem_map.mp ha with ⟨b, _, rfl⟩
      obtain ⟨n', sub', b', hmem, _, heq⟩ := mem_fileAddrsSubs hb
      have hnn : n = n' := (List.cons.inj heq).1
      exact hcons.1 (hnn ▸ List.mem_map.mpr ⟨(n', sub'), hmem, rfl⟩)

end

mutual

theorem fileAddrs_valid : ∀ (t : CamFolder), wfTree t = true →
    ∀ a ∈ fileAddrs t, ∀ s ∈ a, validNameB s = true
  | .node files subs, h => by
    rw [wfTree] at h
    simp only [Bool.and_eq_true] at h
    obtain ⟨⟨⟨⟨hf, hs⟩, _⟩, _⟩, hw⟩ := h
    intro a ha s hsa
    rw [fileAddrs] at ha
    rcases List.mem_append.mp ha with ha | ha
    · rcases List.mem_map.mp ha with ⟨f, hfm, rfl⟩
      obtain rfl : s = f.1 := List.mem_singleton.mp hsa
      exact List.all_eq_true.mp hf f hfm
    · exact fileAddrsSubs_valid subs hs hw a ha s hsa

theorem fileAddrsSubs_valid : ∀ (subs : List (String × CamFolder)),
    subs.all (fun s => validNameB s.1) = true → wfSubs subs = true →
    ∀ a ∈ fileAddrsSubs subs, ∀ s ∈ a, validNameB s = true
  | [], _, _ => by
    intro a ha
    simp [fileAddrsSubs] at ha
  | (n, sub) :: rest, hall, hw => by
    rw [wfSubs, Bool.and_eq_true] at hw
    rw [List.all_cons, Bool.and_eq_true] at hall
    intro a ha s hsa
    rw [fileAddrsSubs] at ha
    rcases List.mem_append.mp ha with ha | ha
    · rcases List.mem_map.mp ha with ⟨b, hb, rfl⟩
      rcases List.mem_cons.mp hsa with rfl | hsb
      · exact hall.1
      · exact fileAddrs_valid sub hw.1 b hb s hsb
    · exact fileAddrsSubs_valid rest hall.2 hw.2 a ha s hsa

end

/-- A valid path segment at character level: nonempty, no separator. -/
def validSeg (s : List Char) : Prop := s ≠ [] ∧ '/' ∉ s

/-- The canonical absolute rendering of a segment list:
`/seg1/seg2/…` as characters. -/
def segsJoin (l : List (List Char)) : List Char :=
  (l.map (fun s => '/' :: s)).flatten

theorem validSeg_of_validNameB {s : String} (h : validNameB s = true) :
    validSeg s.data := by
  rw [validNameB, Bool.and_eq_true] at h
  constructor
  · intro he
    have h1 := h.1
    rw [Bool.not_eq_true'] at h1
    rw [he] at h1
    exact Bool.noConfusion h1
  · intro hm
    have := List.all_eq_true.mp h.2 '/' hm
    simp at this

theorem segsJoin_ne_nil {l : List (List Char)} (h : l ≠ []) : segsJoin l ≠ [] := by
  cases l with
  | nil => exact absurd rfl h
  | cons x rest =>
    show ('/' :: x ++ (rest.map (fun s => '/' :: s)).flatten) ≠ []
    exact List.cons_ne_nil _ _

theorem segsJoin_head_shape : ∀ l : List (List Char),
    segsJoin l = [] ∨ (segsJoin l).head? = some '/'
  | [] => Or.inl rfl
  | _ :: _ => Or.inr rfl

theorem getLast_mem_of_ne_nil {α : Type} :
    ∀ (l : List α), l ≠ [] → ∃ c, l.getLast? = some c ∧ c ∈ l := by
  intro l
  induction l with
  | nil => intro h; exact absurd rfl h
  | cons a rest ih =>
    intro _
    cases hr : rest with
    | nil => exact ⟨a, rfl, List.mem_singleton.mpr rfl⟩
    | cons b t =>
      obtain ⟨c, hc, hcm⟩ := ih (by rw [hr]; exact List.cons_ne_nil b t)
      rw [hr] at hc hcm
      exact ⟨c, by rw [List.getLast?_cons_cons]; exact hc,
        List.mem_cons_of_mem a (hr ▸ hcm)⟩

theorem getLast_append_right {α : Type} (l₁ : List α) :
    ∀ (l₂ : List α), l₂ ≠ [] → (l₁ ++ l₂).getLast? = l₂.getLast? := by
  induction l₁ with
  | nil => intro l₂ _; rw [List.nil_append]
  | cons a rest ih =>
    intro l₂ h2
    rw [List.cons_append]
    have hne : rest ++ l₂ ≠ [] := by
      intro hc
      exact h2 (List.append_eq_nil.mp hc).2
    cases hr : rest ++ l₂ with
    | nil => exact absurd hr hne
    | cons b t =>
      rw [List.getLast?_cons_cons, ← hr, ih l₂ h2]

theorem segsJoin_getLast : ∀ (l : List (List Char)), l ≠ [] →
    (∀ s ∈ l, validSeg s) → ∃ c, (segsJoin l).getLast? = some c ∧ c ≠ '/' := by
  intro l
  induction l with
  | nil => intro h _; exact absurd rfl h
  | cons x rest ih =>
    intro _ hv
    have hx := hv x (List.mem_cons_self x rest)
    cases hr : rest with
    | nil =>
      obtain ⟨c, hc, hcm⟩ := getLast_mem_of_ne_nil x hx.1
      refine ⟨c, ?_, fun he => hx.2 (he ▸ hcm)⟩
      show ((('/' : Char) :: x) ++ []).getLast? = some c
      rw [List.append_nil]
      rw [show ('/' : Char) :: x = ['/'] ++ x from rfl]
      rw [getLast_append_right ['/'] x hx.1]
      exact hc
    | cons y t =>
      obtain ⟨c, hc, hcne⟩ := ih (by rw [hr]; exact List.cons_ne_nil y t)
        (fun s hs => hv s (List.mem_cons_of_mem x (hr ▸ hs)))
      rw [hr] at hc
      refine ⟨c, ?_, hcne⟩
      show (('/' :: x) ++ segsJoin (y :: t)).getLast? = some c
      rw [getLast_append_right _ _ (segsJoin_ne_nil (List.cons_ne_nil y t))]
      exact hc

theorem startsWithSlash_eq_false {n : String} (h : validSeg n.data) :
    startsWithSlash n = false := by
  rcases h with ⟨hne, hnm⟩
  rw [startsWithSlash]
  split
  · rfl
  · next c rest heq =>
    have hc : c ≠ '/' := fun he => hnm (heq ▸ (he ▸ List.mem_cons_self c rest))
    exact beq_eq_false_iff_ne.mpr hc

theorem beq_empty_eq_false {q : String} (h : q.data ≠ []) : (q == "") = false := by
  rw [beq_eq_false_iff_ne]
  intro he
  exact h (by rw [he])

theorem osPathJoin_data_step {q n : String} (hq1 : q.data ≠ [])
    (hq2 : endsWithSlash q = false) (hn : validSeg n.data) :
    (osPathJoin q n).data = q.data ++ '/' :: n.data := by
  have h1 : ¬(startsWithSlash n = true) := by
    rw [startsWithSlash_eq_false hn]
    exact Bool.false_ne_true
  have h2 : ¬((q == "") = true) := by
    rw [beq_empty_eq_false hq1]
    exact Bool.false_ne_true
  have h3 : ¬(endsWithSlash q = true) := by
    rw [hq2]
    exact Bool.false_ne_true
  rw [osPathJoin, if_neg h1, if_neg h2, if_neg h3, String.data_append,
    String.data_append, List.append_assoc]
  rfl

theorem osPathJoin_root {n : String} (hn : validSeg n.data) :
    (osPathJoin "/" n).data = '/' :: n.data := by
  have h1 : ¬(startsWithSlash n = true) := by
    rw [startsWithSlash_eq_false hn]
    exact Bool.false_ne_true
  have h2 : ¬((("/" : String) == "") = true) := by decide
  have h3 : endsWithSlash "/" = true := by decide
  rw [osPathJoin, if_neg h1, if_neg h2, if_pos h3, String.data_append]
  rfl

theorem renderAddr_segsJoin : ∀ (a : List String) (pre : List (List Char)),
    pre ≠ [] → (∀ s ∈ pre, validSeg s) → (∀ n ∈ a, validSeg n.data) →
    renderAddr ⟨segsJoin pre⟩ a = ⟨segsJoin (pre ++ a.map String.data)⟩ := by
  intro a
  induction a with
  | nil =>
    intro pre _ _ _
    rw [List.map_nil, List.append_nil]
    rfl
  | cons n rest ih =>
    intro pre hne hv hva
    have hq1 : (⟨segsJoin pre⟩ : String).data ≠ [] := segsJoin_ne_nil hne
    have hq2 : endsWithSlash ⟨segsJoin pre⟩ = false := by
      obtain ⟨c, hc, hcne⟩ := segsJoin_getLast pre hne hv
      rw [endsWithSlash]
      show (match (segsJoin pre).getLast? with
        | some c => c == '/'
        | none => false) = false
      rw [hc]
      exact beq_eq_false_iff_ne.mpr hcne
    have hn : validSeg n.data := hva n (List.mem_cons_self n rest)
    have hstep : osPathJoin ⟨segsJoin pre⟩ n = ⟨segsJoin (pre ++ [n.data])⟩ := by
      apply String.ext
      rw [osPathJoin_data_step hq1 hq2 hn]
      show segsJoin pre ++ '/' :: n.data = segsJoin (pre ++ [n.data])
      rw [segsJoin, segsJoin, List.map_append, List.flatten_append]
      simp
    have hshift : renderAddr ⟨segsJoin pre⟩ (n :: rest) =
        renderAddr (osPathJoin ⟨segsJoin pre⟩ n) rest := rfl
    rw [hshift, hstep, ih (pre ++ [n.data])
      (by intro hc; exact absurd (List.append_eq_nil.mp hc).1 hne)
      (by
        intro s hs
        rcases List.mem_append.mp hs with hs | hs
        · exact hv s hs
        · obtain rfl : s = n.data := List.mem_singleton.mp hs
          exact hn)
      (fun m hm => hva m (List.mem_cons_of_mem n hm))]
    rw [List.append_assoc]
    rfl

theorem renderAddr_root (a : List String) (ha : ∀ n ∈ a, validSeg n.data)
    (hne : a ≠ []) :
    renderAddr "/" a = ⟨segsJoin (a.map String.data)⟩ := by
  cases a with
  | nil => exact absurd rfl hne
  | cons n rest =>
    have hn := ha n (List.mem_cons_self n rest)
    have h1 : renderAddr "/" (n :: rest) = renderAddr (osPathJoin "/" n) rest := rfl
    have h2 : osPathJoin "/" n = ⟨segsJoin [n.data]⟩ := by
      apply String.ext
      rw [osPathJoin_root hn]
      show ('/' : Char) :: n.data = segsJoin [n.data]
      rw [segsJoin]
      simp
    rw [h1, h2, renderAddr_segsJoin rest [n.data] (List.cons_ne_nil _ _)
      (by
        intro s hs
        obtain rfl : s = n.data := List.mem_singleton.mp hs
        exact hn)
      (fun m hm => ha m (List.mem_cons_of_mem n hm))]
    rfl

theorem seg_prefix_free : ∀ (x : List Char), '/' ∉ x → ∀ (y : List Char), '/' ∉ y →
    ∀ (u v : List Char), (u = [] ∨ u.head? = some '/') → (v = [] ∨ v.head? = some '/') →
    x ++ u = y ++ v → x = y ∧ u = v := by
  intro x
  induction x with
  | nil =>
    intro _ y hy u v hu _ heq
    cases y with
    | nil => exact ⟨rfl, heq⟩
    | cons c y' =>
      exfalso
      rw [List.nil_append, List.cons_append] at heq
      rcases hu with rfl | hh
      · exact List.noConfusion heq
      · rw [heq] at hh
        have hc : c = '/' := by simpa using hh
        exact hy (hc ▸ List.mem_cons_self c y')
  | cons a x' ih =>
    intro hx y hy u v hu hv heq
    cases y with
    | nil =>
      exfalso
      rw [List.nil_append, List.cons_append] at heq
      rcases hv with rfl | hh
      · exact List.noConfusion heq.symm
      · rw [← heq] at hh
        have ha : a = '/' := by simpa using hh
        exact hx (ha ▸ List.mem_cons_self a x')
    | cons b y' =>
      rw [List.cons_append, List.cons_append] at heq
      obtain ⟨hab, htail⟩ := List.cons.inj heq
      obtain ⟨hxy, huv⟩ := ih (fun hm => hx (List.mem_cons_of_mem a hm)) y'
        (fun hm => hy (List.mem_cons_of_mem b hm)) u v hu hv htail
      exact ⟨by rw [hab, hxy], huv⟩

theorem segsJoin_inj : ∀ (xs ys : List (List Char)),
    (∀ s ∈ xs, validSeg s) → (∀ s ∈ ys, validSeg s) →
    segsJoin xs = segsJoin ys → xs = ys := by
  intro xs
  induction xs with
  | nil =>
    intro ys _ _ h
    cases ys with
    | nil => rfl
    | cons y ys' =>
      exfalso
      have h2 : ([] : List Char) = '/' :: (y ++ segsJoin ys') := h
      exact List.noConfusion h2
  | cons x xs' ih =>
    intro ys hx hy h
    cases ys with
    | nil =>
      exfalso
      have h2 : ('/' : Char) :: (x ++ segsJoin xs') = [] := h
      exact List.noConfusion h2
    | cons y ys' =>
      have h2 : ('/' : Char) :: (x ++ segsJoin xs') = '/' :: (y ++ segsJoin ys') := h
      have h3 := (List.cons.inj h2).2
      obtain ⟨hxy, hrest⟩ := seg_prefix_free x
        (hx x (List.mem_cons_self x xs')).2 y (hy y (List.mem_cons_self y ys')).2
        (segsJoin xs') (segsJoin ys')
        (segsJoin_head_shape xs') (segsJoin_head_shape ys') h3
      rw [hxy, ih ys' (fun s hs => hx s (List.mem_cons_of_mem x hs))
        (fun s hs => hy s (List.mem_cons_of_mem y hs)) hrest]

theorem renderAddr_root_inj {a b : List String}
    (ha : ∀ n ∈ a, validSeg n.data) (hb : ∀ n ∈ b, validSeg n.data)
    (hane : a ≠ []) (hbne : b ≠ [])
    (h : renderAddr "/" a = renderAddr "/" b) : a = b := by
  rw [renderAddr_root a ha hane, renderAddr_root b hb hbne] at h
  have hdata : segsJoin (a.map String.data) = segsJoin (b.map String.data) :=
    congrArg String.data h
  have hmap := segsJoin_inj (a.map String.data) (b.map String.data)
    (by
      intro s hs
      rcases List.mem_map.mp hs with ⟨n, hn, rfl⟩
      exact ha n hn)
    (by
      intro s hs
      rcases List.mem_map.mp hs with ⟨n, hn, rfl⟩
      exact hb n hn)
    hdata
  have hinj : Function.Injective String.data := fun s t hs => String.ext hs
  exact List.map_injective_iff.mpr hinj hmap

/-- Each reachable file appears exactly once in `list_files`'s walk of
a well-formed tree. -/
theorem walk_nodup (t : CamFolder) (h : wfTree t = true) :
    (listFilesWalk t "/").Nodup := by
  rw [walk_eq]
  refine List.Nodup.map_on ?_ (fileAddrs_nodup t h)
  intro a ha b hb heq
  exact renderAddr_root_inj
    (fun n hn => validSeg_of_validNameB (fileAddrs_valid t h a ha n hn))
    (fun n hn => validSeg_of_validNameB (fileAddrs_valid t h b hb n hn))
    (fileAddrs_ne_nil ha) (fileAddrs_ne_nil hb) heq

/-- A file is reachable by recursive descent from folder `p` of tree
`t` at full path `q`: either it is a file of `p` itself (path rebuilt
by one `os.path.join`), or it is reachable inside one of `p`'s
subfolders. -/
inductive Reaches : String → CamFolder → String → Prop where
  | file : ∀ {p : String} {files : List (String × CameraFileInfo)}
      {subs : List (String × CamFolder)} {name : String} {info : CameraFileInfo},
      (name, info) ∈ files → Reaches p (.node files subs) (osPathJoin p name)
  | sub : ∀ {p : String} {files : List (String × CameraFileInfo)}
      {subs : List (String × CamFolder)} {n : String} {t : CamFolder} {q : String},
      (n, t) ∈ subs → Reaches (osPathJoin p n) t q → Reaches p (.node files subs) q

mutual

theorem reaches_of_mem_walk : ∀ (t : CamFolder) (p q : String),
    q ∈ listFilesWalk t p → Reaches p t q
  | .node files subs, p, q => by
    intro h
    rw [listFilesWalk] at h
    rcases List.mem_append.mp h with h | h
    · rcases List.mem_map.mp h with ⟨f, hf, rfl⟩
      exact Reaches.file (show (f.1, f.2) ∈ files by simpa using hf)
    · obtain ⟨n, sub, hmem, hq⟩ := reaches_of_mem_walkSubs subs p q h
      exact Reaches.sub hmem hq

theorem reaches_of_mem_walkSubs : ∀ (subs : List (String × CamFolder)) (p q : String),
    q ∈ listFilesWalkSubs subs p →
    ∃ n sub, (n, sub) ∈ subs ∧ Reaches (osPathJoin p n) sub q
  | [], p, q => by
    intro h
    rw [listFilesWalkSubs] at h
    exact absurd h (List.not_mem_nil q)
  | (n, sub) :: rest, p, q => by
    intro h
    rw [listFilesWalkSubs] at h
    rcases List.mem_append.mp h with h | h
    · exact ⟨n, sub, List.mem_cons_self _ _, reaches_of_mem_walk sub (osPathJoin p n) q h⟩
    · obtain ⟨n', sub', hmem, hq⟩ := reaches_of_mem_walkSubs rest p q h
      exact ⟨n', sub', List.mem_cons_of_mem _ hmem, hq⟩

end

theorem walkSubs_superset {subs : List (String × CamFolder)} {n : String}
    {sub : CamFolder} (hmem : (n, sub) ∈ subs) (p q : String)
    (h : q ∈ listFilesWalk sub (osPathJoin p n)) : q ∈ listFilesWalkSubs subs p := by
  induction subs with
  | nil => simp at hmem
  | cons x rest ih =>
    rw [listFilesWalkSubs]
    rcases List.mem_cons.mp hmem with rfl | hmem'
    · exact List.mem_append_left _ h
    · rcases x with ⟨n', sub'⟩
      exact List.mem_append_right _ (ih hmem')

theorem mem_walk_of_reaches {p : String} {t : CamFolder} {q : String}
    (h : Reaches p t q) : q ∈ listFilesWalk t p := by
  induction h with
  | file hf =>
    rw [listFilesWalk]
    refine List.mem_append_left _ ?_
    exact List.mem_map.mpr ⟨(_, _), hf, rfl⟩
  | sub hmem _ ih =>
    rw [listFilesWalk]
    exact List.mem_append_right _ (walkSubs_superset hmem _ _ ih)

/-- C8: on a well-formed device tree, the recursive discovery of
`list_files` returns exactly the files reachable by recursive descent
(each full path rebuilt by `os.path.join` along the way), each exactly
once, and within each folder it lists the folder's own files before the
contents of its subfolders, which are visited in listing order. -/
theorem C8_discovery_exhaustive_unique (t : CamFolder) (h : wfTree t = true) :
    (∀ q, q ∈ listFilesWalk t "/" ↔ Reaches "/" t q)
    ∧ (listFilesWalk t "/").Nodup
    ∧ (∀ (files : List (String × CameraFileInfo))
        (subs : List (String × CamFolder)) (p : String),
        listFilesWalk (.node files subs) p =
          files.map (fun f => osPathJoin p f.1) ++ listFilesWalkSubs subs p
        ∧ ∀ (n : String) (sub : CamFolder) (rest : List (String × CamFolder)),
          listFilesWalkSubs ((n, sub) :: rest) p =
            listFilesWalk sub (osPathJoin p n) ++ listFilesWalkSubs rest p) :=
  ⟨fun q => ⟨reaches_of_mem_walk t "/" q, mem_walk_of_reaches⟩,
   walk_nodup t h,
   fun _ _ _ => ⟨rfl, fun _ _ _ => rfl⟩⟩

/-- The spec's example tree: `IMG1.JPG` at the root, `IMG2.JPG` inside
`/DCIM/100`. -/
def specTree : CamFolder :=
  .node [("IMG1.JPG", CameraFileInfo.mk (some (FileField.mk (some 100))))]
    [("DCIM", .node []
      [("100", .node [("IMG2.JPG", CameraFileInfo.mk (some (FileField.mk (some 5))))] [])])]

/-- Witness for C8 on the spec's example tree, whose walk is
`["/IMG1.JPG", "/DCIM/100/IMG2.JPG"]`. -/
theorem C8_discovery_exhaustive_unique_witness :
    wfTree specTree = true
    ∧ listFilesWalk specTree "/" = ["/IMG1.JPG", "/DCIM/100/IMG2.JPG"]
    ∧ ((∀ q, q ∈ listFilesWalk specTree "/" ↔ Reaches "/" specTree q)
      ∧ (listFilesWalk specTree "/").Nodup) :=
  ⟨by decide, by decide,
   ⟨(C8_discovery_exhaustive_unique specTree (by decide)).1,
    (C8_discovery_exhaustive_unique specTree (by decide)).2.1⟩⟩

/-! ## The image listing as a plain walk (C1) -/

mutual

/-- Specification-side plain recursive listing with infos: the entries
`list_images` discovers, in discovery order, without the dict
indirection. -/
def walkEntries : CamFolder → String → List (String × CameraFileInfo)
  | .node files subs, path =>
    files.map (fun f => (osPathJoin path f.1, f.2)) ++ walkEntriesSubs subs path

def walkEntriesSubs : List (String × CamFolder) → String → List (String × CameraFileInfo)
  | [], _ => []
  | (n, sub) :: rest, path =>
    walkEntries sub (osPathJoin path n) ++ walkEntriesSubs rest path

end

mutual

theorem walkEntries_fst : ∀ (t : CamFolder) (p : String),
    (walkEntries t p).map Prod.fst = listFilesWalk t p
  | .node files subs, p => by
    rw [walkEntries, listFilesWalk, List.map_append, List.map_map,
      walkEntriesSubs_fst subs p]
    refine congrArg (· ++ _) ?_
    exact List.map_congr_left (fun f _ => rfl)

theorem walkEntriesSubs_fst : ∀ (subs : List (String × CamFolder)) (p : String),
    (walkEntriesSubs subs p).map Prod.fst = listFilesWalkSubs subs p
  | [], _ => rfl
  | (n, sub) :: rest, p => by
    rw [walkEntriesSubs, listFilesWalkSubs, List.map_append,
      walkEntries_fst sub (osPathJoin p n), walkEntriesSubs_fst rest p]

end

theorem dictInsert_fresh {acc : List (String × CameraFileInfo)} {k : String}
    {v : CameraFileInfo} (h : ∀ e ∈ acc, e.1 ≠ k) :
    dictInsert acc k v = acc ++ [(k, v)] := by
  rw [dictInsert, if_neg]
  intro hc
  rcases List.any_eq_true.mp hc with ⟨e, he, hek⟩
  exact h e he (by simpa using hek)

theorem foldl_dictInsert (files : List (String × CameraFileInfo)) (p : String) :
    ∀ acc : List (String × CameraFileInfo),
      (∀ e ∈ acc, ∀ f ∈ files, e.1 ≠ osPathJoin p f.1) →
      (files.map (fun f => osPathJoin p f.1)).Nodup →
      files.foldl (fun a f => dictInsert a (osPathJoin p f.1) f.2) acc =
        acc ++ files.map (fun f => (osPathJoin p f.1, f.2)) := by
  induction files with
  | nil =>
    intro acc _ _
    rw [List.foldl_nil, List.map_nil, List.append_nil]
  | cons f rest ih =>
    intro acc hfresh hnodup
    rw [List.map_cons, List.nodup_cons] at hnodup
    rw [List.foldl_cons,
      dictInsert_fresh (fun e he => hfresh e he f (List.mem_cons_self f rest)),
      ih (acc ++ [(osPathJoin p f.1, f.2)]) ?_ hnodup.2, List.map_cons,
      List.append_assoc]
    · rfl
    · intro e he f' hf'
      rcases List.mem_append.mp he with he | he
      · exact hfresh e he f' (List.mem_cons_of_mem f hf')
      · obtain rfl : e = (osPathJoin p f.1, f.2) := List.mem_singleton.mp he
        intro hc
        refine hnodup.1 ?_
        rw [show osPathJoin p f.1 = osPathJoin p f'.1 from hc]
        exact List.mem_map.mpr ⟨f', hf', rfl⟩

mutual

theorem collect_plain : ∀ (t : CamFolder) (p : String)
    (acc : List (String × CameraFileInfo)),
    (∀ e ∈ acc, ∀ w ∈ walkEntries t p, e.1 ≠ w.1) →
    ((walkEntries t p).map Prod.fst).Nodup →
    collectImages t p acc = acc ++ walkEntries t p
  | .node files subs, p, acc => by
    intro hfresh hnodup
    rw [walkEntries, List.map_append] at hnodup
    obtain ⟨hnf, hns, hdisj⟩ := List.nodup_append.mp hnodup
    have hkeysf : (files.map (fun f => (osPathJoin p f.1, f.2))).map Prod.fst =
        files.map (fun f => osPathJoin p f.1) := by
      rw [List.map_map]
      exact List.map_congr_left (fun f _ => rfl)
    rw [collectImages, foldl_dictInsert files p acc ?_ (by rw [← hkeysf]; exact hnf),
      collectSubs_plain subs p _ ?_ hns, List.append_assoc, walkEntries]
    · intro e he w hw
      rcases List.mem_append.mp he with he | he
      · exact hfresh e he w (by rw [walkEntries]; exact List.mem_append_right _ hw)
      · intro hc
        refine hdisj (a := e.1) (List.mem_map.mpr ⟨e, he, rfl⟩) ?_
        rw [hc]
        exact List.mem_map.mpr ⟨w, hw, rfl⟩
    · intro e he f hf
      exact hfresh e he (osPathJoin p f.1, f.2)
        (by
          rw [walkEntries]
          exact List.mem_append_left _ (List.mem_map.mpr ⟨f, hf, rfl⟩))

theorem collectSubs_plain : ∀ (subs : List (String × CamFolder)) (p : String)
    (acc : List (String × CameraFileInfo)),
    (∀ e ∈ acc, ∀ w ∈ walkEntriesSubs subs p, e.1 ≠ w.1) →
    ((walkEntriesSubs subs p).map Prod.fst).Nodup →
    collectImagesSubs subs p acc = acc ++ walkEntriesSubs subs p
  | [], p, acc => by
    intro _ _
    rw [collectImagesSubs, walkEntriesSubs, List.append_nil]
  | (n, sub) :: rest, p, acc => by
    intro hfresh hnodup
    rw [walkEntriesSubs, List.map_append] at hnodup
    obtain ⟨hn1, hn2, hdisj⟩ := List.nodup_append.mp hnodup
    rw [collectImagesSubs,
      collect_plain sub (osPathJoin p n) acc ?_ hn1,
      collectSubs_plain rest p _ ?_ hn2, List.append_assoc, walkEntriesSubs]
    · intro e he w hw
      rcases List.mem_append.mp he with he | he
      · exact hfresh e he w
          (by rw [walkEntriesSubs]; exact List.mem_append_right _ hw)
      · intro hc
        refine hdisj (a := e.1) (List.mem_map.mpr ⟨e, he, rfl⟩) ?_
        rw [hc]
        exact List.mem_map.mpr ⟨w, hw, rfl⟩
    · intro e he w hw
      exact hfresh e he w (by rw [walkEntriesSubs]; exact List.mem_append_left _ hw)

end

/-- C1: on a well-formed tree and a valid handle, `syncRecent`
(`download_new_files`) returns `destination/<basename>` for exactly the
discovered remote files whose recency test passes the cutoff
`now − days·86400` — none older — in the order the recursive walk
discovered them; and for a file carrying a device-reported mtime the
recency test is exactly `mtime ≥ cutoff`. -/
theorem C1_sync_recent_exact (cam : CameraState) (camera_info : CameraInfo)
    (days : Nat) (destination : String) (now : Int)
    (hidx : camera_info.index < cam.enumLen) (hwf : wfTree cam.tree = true) :
    CameraClient.download_new_files cam camera_info days destination now =
      .ok (((walkEntries cam.tree "/").filter
          (fun e => isRecent e.2 (now - (days : Int) * 86400))).map
        (fun e => osPathJoin destination (basename e.1)))
    ∧ ∀ (i : CameraFileInfo) (f : FileField) (m c : Int),
        i.file = some f → f.mtime = some m → isRecent i c = decide (c ≤ m) := by
  constructor
  · have hkeys : ((walkEntries cam.tree "/").map Prod.fst).Nodup := by
      rw [walkEntries_fst]
      exact walk_nodup cam.tree hwf
    have hcol : collectImages cam.tree "/" [] = walkEntries cam.tree "/" := by
      rw [collect_plain cam.tree "/" []
        (by intro e he; exact absurd he (List.not_mem_nil e)) hkeys,
        List.nil_append]
    rw [download_reduce cam camera_info days destination now (Nat.not_le.mpr hidx),
      hcol]
    split
    · next hemp =>
      rw [List.isEmpty_iff.mp hemp]
      rfl
    · rfl
  · intro i f m c hf hm
    have hstep : isRecent i c = decide (c ≤ f.mtime.getD 0) := by
      rw [isRecent, hf]
    rw [hstep, hm]
    rfl

/-- Camera for the C1 witness: one enumerated device carrying
`specTree` (mtimes 100 and 5). -/
def specCam : CameraState := CameraState.mk 1 specTree

/-- Witness for C1: with cutoff `50 − 0·86400 = 50`, only `IMG1.JPG`
(mtime 100) qualifies; the download returns `/dest/IMG1.JPG`. -/
theorem C1_sync_recent_exact_witness :
    ((0 : Nat) < 1 ∧ wfTree specCam.tree = true
      ∧ (((walkEntries specCam.tree "/").filter
          (fun e => isRecent e.2 (50 - (0 : Int) * 86400))).map
        (fun e => osPathJoin "/dest" (basename e.1))) = ["/dest/IMG1.JPG"])
    ∧ CameraClient.download_new_files specCam (CameraInfo.mk 0 1 2 "m" "p")
        0 "/dest" 50 =
      .ok (((walkEntries specCam.tree "/").filter
          (fun e => isRecent e.2 (50 - (0 : Int) * 86400))).map
        (fun e => osPathJoin "/dest" (basename e.1))) :=
  ⟨⟨by decide, by decide, by decide⟩,
   (C1_sync_recent_exact specCam (CameraInfo.mk 0 1 2 "m" "p") 0 "/dest" 50
      (by decide) (by decide)).1⟩
